import Mathlib

/-!
# findMyFunction.cpp: a verification development

A shallow embedding of `src/findMyFunction.cpp`.

* A C++ `std::string` is a `List Char`; every `Char` stands for one code unit
  (`PCRE2_CODE_UNIT_WIDTH 8`), and all offsets and lengths count code units.
* `std::string::npos` is `none`.
* `pcre2_match` is a library call.  It is embedded as a leftmost, greedy,
  backtracking matcher over the items of the pattern that `main` compiles.
* Every function is embedded as one thread runs it.  Of the threads of `main` only
  the arguments they are started with are embedded (`spawnArgs`), not their
  interleaving.
-/

namespace FindMyFunction

/-! ## Strings -/

/-- A `std::string`: a sequence of code units. -/
abbrev Str := List Char

/-- The result of `s.substr(pos, n)` for `pos ≤ s.size()`. -/
def substr (s : Str) (pos n : Nat) : Str := (s.drop pos).take n

/-- Whether `pat` is found in `s` at its very beginning. -/
def startsWith : Str → Str → Bool
  | _, [] => true
  | [], _ :: _ => false
  | c :: s, d :: pat => c == d && startsWith s pat

/-- Search of `pat` in the remainder `s` that begins at absolute offset `i`. -/
def findAux (pat : Str) : Str → Nat → Option Nat
  | [], i => if startsWith [] pat then some i else none
  | c :: s, i => if startsWith (c :: s) pat then some i else findAux pat s (i + 1)

/-- The call `s.find(pat, pos)`: the least offset `≥ pos` at which `pat` occurs,
or `none` for `npos`. -/
def find (s pat : Str) (pos : Nat) : Option Nat :=
  if pos ≤ s.length then findAux pat (s.drop pos) pos else none

/-- The call `s.find(c, pos)` for a single character. -/
def findChar (s : Str) (c : Char) (pos : Nat) : Option Nat := find s [c] pos

/-! ## The pattern matcher -/

/-- The class `\s` of PCRE2 (no UCP): HT, LF, VT, FF, CR and space. -/
def isSpace (c : Char) : Bool :=
  c == ' ' || c == '\t' || c == '\n' || c == '\x0b' || c == '\x0c' || c == '\r'

/-- The class `[a-zA-Z]`. -/
def isAlpha (c : Char) : Bool :=
  ('a'.toNat ≤ c.toNat && c.toNat ≤ 'z'.toNat) || ('A'.toNat ≤ c.toNat && c.toNat ≤ 'Z'.toNat)

/-- The class `[^"]`. -/
def notQuote (c : Char) : Bool := c != '"'

/-- The character classes that occur in the pattern. -/
inductive CharClass where
  | space
  | alpha
  | notQuote
  deriving DecidableEq, Repr

/-- Membership of a code unit in a class. -/
def CharClass.test : CharClass → Char → Bool
  | .space => isSpace
  | .alpha => isAlpha
  | .notQuote => FindMyFunction.notQuote

/-- The items a compiled pattern is made of. -/
inductive Item where
  | chr (c : Char)
  | star (cl : CharClass)
  | plus (cl : CharClass)
  | capStart (n : Nat)
  | capEnd (n : Nat)
  deriving DecidableEq, Repr

/-- A greedy repetition: take one more code unit of the class when possible and,
when the rest of the pattern then fails, give it back and continue from here. -/
def greedy (k : Str → Nat → Option (List Nat)) (cl : CharClass) : Str → Nat → Option (List Nat)
  | [], pos => k [] pos
  | c :: s, pos =>
    if cl.test c then
      match greedy k cl s (pos + 1) with
      | some ov => some ov
      | none => k (c :: s) pos
    else k (c :: s) pos

/-- Backtracking match of a list of items against the remainder `s` of the subject,
which begins at offset `pos`.  The result is the ovector of the first successful
path: entry 1 is the end of the match, entries `2n` and `2n+1` bound group `n`. -/
def matchItems : List Item → Str → Nat → Option (List Nat)
  | [], _, pos => some [0, pos, 0, 0, 0, 0]
  | .chr c :: rest, s, pos =>
    match s with
    | [] => none
    | x :: xs => if x = c then matchItems rest xs (pos + 1) else none
  | .star cl :: rest, s, pos => greedy (fun s1 p1 => matchItems rest s1 p1) cl s pos
  | .plus cl :: rest, s, pos =>
    match s with
    | [] => none
    | x :: xs =>
      if cl.test x then greedy (fun s1 p1 => matchItems rest s1 p1) cl xs (pos + 1) else none
  | .capStart n :: rest, s, pos => (matchItems rest s pos).map (fun ov => ov.set (2 * n) pos)
  | .capEnd n :: rest, s, pos => (matchItems rest s pos).map (fun ov => ov.set (2 * n + 1) pos)

/-- The marker searched for by `processFile`. -/
def marker : Str := "myFunction".toList

/-- The pattern compiled in `main`:
`myFunction\s*\("\s*([a-zA-Z]+)\s+([^"]*)"\)\s*;`. -/
def callPattern : List Item :=
  marker.map Item.chr ++
  [.star .space, .chr '(', .chr '"', .star .space,
   .capStart 1, .plus .alpha, .capEnd 1,
   .plus .space,
   .capStart 2, .star .notQuote, .capEnd 2,
   .chr '"', .chr ')', .star .space, .chr ';']

/-- The unanchored search of `pcre2_match`: the first start offset, from `pos` on,
at which the pattern matches; entry 0 of the ovector is that offset. -/
def searchFrom (items : List Item) : Str → Nat → Option (List Nat)
  | [], pos => (matchItems items [] pos).map (fun ov => ov.set 0 pos)
  | c :: s, pos =>
    match matchItems items (c :: s) pos with
    | some ov => some (ov.set 0 pos)
    | none => searchFrom items s (pos + 1)

/-- The call `pcre2_match(re, subject, length, 0, 0, match_data, nullptr)`:
`some ovector` when `rc >= 0`, `none` for `PCRE2_ERROR_NOMATCH`. -/
def pcre2_match (re : List Item) (subject : Str) : Option (List Nat) :=
  searchFrom re subject 0

/-! ## processFile -/

/-- The struct `FunctionCall`. -/
structure FunctionCall where
  filename : Str
  fullCall : Str
  argument : Str
  tag : Str
  identifier : Str
  deriving DecidableEq, Repr

/-- The characters `" \t\n\r"` removed from both ends of a field. -/
def trimSet : Str := " \t\n\r".toList

/-- Search for the first code unit outside `set` in a remainder that begins at `i`. -/
def firstNotOfAux (set : Str) : Str → Nat → Option Nat
  | [], _ => none
  | c :: s, i => if set.contains c then firstNotOfAux set s (i + 1) else some i

/-- The call `s.find_first_not_of(set)`. -/
def find_first_not_of (s set : Str) : Option Nat := firstNotOfAux set s 0

/-- Search for the last code unit outside `set` in a remainder that begins at `i`. -/
def lastNotOfAux (set : Str) : Str → Nat → Option Nat
  | [], _ => none
  | c :: s, i =>
    match lastNotOfAux set s (i + 1) with
    | some j => some j
    | none => if set.contains c then none else some i

/-- The call `s.find_last_not_of(set)`. -/
def find_last_not_of (s set : Str) : Option Nat := lastNotOfAux set s 0

/-- The body of the loop over `{&call.argument, &call.tag, &call.identifier}`,
for one field. -/
def trimField (field : Str) : Str :=
  let startPos := find_first_not_of field trimSet
  let endPos := find_last_not_of field trimSet
  match startPos, endPos with
  | some a, some b => substr field a (b - a + 1)
  | none, _ => []
  | some _, none => field

/-- The part of a path after its last `/`: `fs::path(filepath).filename()`. -/
def pathFilename (filepath : Str) : Str :=
  (filepath.reverse.takeWhile (fun c => c != '/')).reverse

/-- The body of the `while` loop of `processFile` for the marker occurrence at
`start`: the Record that is pushed, or `none` when `rc < 0`. -/
def matchOccurrence (filepath : Str) (re : List Item) (content : Str) (start : Nat) :
    Option FunctionCall :=
  let max_len := min 100 (content.length - start)
  let candidate := substr content start max_len
  match pcre2_match re candidate with
  | none => none
  | some ovector =>
    let ov := fun i => ovector.getD i 0
    let fullCall := substr content (start + ov 0) (ov 1 - ov 0)
    let tag := substr candidate (ov 2) (ov 3 - ov 2)
    let identifier := substr candidate (ov 4) (ov 5 - ov 4)
    let argument := tag ++ [' '] ++ identifier
    some
      { filename := pathFilename filepath
        fullCall := fullCall
        argument := trimField argument
        tag := trimField tag
        identifier := trimField identifier }

/-- The `while ((pos = content.find(marker, pos)) != string::npos)` loop of
`processFile`, entered with the given `pos`: the Records pushed from there on.
The first argument bounds the number of evaluations of the loop condition; the
result is `none` when the loop has not ended within the bound. -/
def scanLoop (filepath : Str) (re : List Item) (content : Str) :
    Nat → Nat → Option (List FunctionCall)
  | 0, _ => none
  | fuel + 1, pos =>
    match find content marker pos with
    | none => some []
    | some start =>
      match scanLoop filepath re content fuel (start + 1) with
      | none => none
      | some calls => some ((matchOccurrence filepath re content start).toList ++ calls)

/-- The scan of `processFile` on the content of a file that could be read: the
vector `calls` when the loop has ended.  The loop condition is evaluated at most
`content.length + 2` times. -/
def scanContent (filepath : Str) (re : List Item) (content : Str) : List FunctionCall :=
  (scanLoop filepath re content (content.length + 2) 0).getD []

/-- The function `processFile`, for a file that opens and is read to its end
(`readFile` gives its content) or that does not open (`readFile` gives `none`).  A
path that opens and then fails to be read, such as a directory, makes the real
function throw; that outcome is not modelled. -/
def processFile (readFile : Str → Option Str) (filepath : Str) (re : List Item) :
    List FunctionCall :=
  match readFile filepath with
  | some content => scanContent filepath re content
  | none => []

/-! ## escapeCSV -/

/-- The call `s.replace(pos, n, r)`. -/
def replace (s : Str) (pos n : Nat) (r : Str) : Str := s.take pos ++ r ++ s.drop (pos + n)

/-- The `while` loop of `escapeCSV`, entered with the given `result` and `pos`: the
value of `result` when the loop has ended.  The first argument bounds the number
of evaluations of the loop condition; the result is `none` when the loop has not
ended within the bound. -/
def escapeLoop : Nat → Str → Nat → Option Str
  | 0, _, _ => none
  | fuel + 1, result, pos =>
    match findChar result '"' pos with
    | none => some result
    | some p => escapeLoop fuel (replace result p 1 ['"', '"']) (p + 2)

/-- The function `escapeCSV`.  The condition of its loop is evaluated at most
`str.length + 1` times. -/
def escapeCSV (str : Str) : Str :=
  let result := str
  if (findChar result ',' 0).isSome || (findChar result '"' 0).isSome then
    ['"'] ++ (escapeLoop (str.length + 1) result 0).getD result ++ ['"']
  else result

/-! ## Sharding -/

/-- The constant `numThreads` of `main`. -/
def numThreads : Nat := 16

/-- The value `filesPerThread` of `main`, for `k` workers. -/
def filesPerThread (n k : Nat) : Nat := n / k

/-- The value `startIdx` that `main` gives to worker `i` of `k`. -/
def startIdx (n k i : Nat) : Nat := i * filesPerThread n k

/-- The value `endIdx` that `main` gives to worker `i` of `k`. -/
def endIdx (n k i : Nat) : Nat :=
  if i = k - 1 then n else (i + 1) * filesPerThread n k

/-- The indices visited by `for (i = startIdx; i < endIdx && i < filepaths.size(); ++i)`
from the given `i` on.  The first argument bounds the number of evaluations of the
loop condition; the result is `none` when the loop has not ended within the bound. -/
def loopIndices (size stop : Nat) : Nat → Nat → Option (List Nat)
  | 0, _ => none
  | fuel + 1, i =>
    if i < stop && i < size then (loopIndices size stop fuel (i + 1)).map (fun l => i :: l)
    else some []

/-- The indices worker `i` of `k` visits in `processFiles`.  The loop condition is
evaluated at most `filepaths.size() + 1` times. -/
def shardIndices (n k i : Nat) : List Nat :=
  (loopIndices n (endIdx n k i) (n + 1) (startIdx n k i)).getD []

/-- The paths worker `i` of `k` visits, in the order of the visit. -/
def shard (filepaths : List Str) (k i : Nat) : List Str :=
  (shardIndices filepaths.length k i).filterMap (fun j => filepaths.get? j)


/-- The extension of a path, `fs::path(filepath).extension()`: the part of the file
name from its last `.` on; empty when the name has no `.`, when its only `.` is its
first character, and for the name `..`. -/
def pathExtension (filepath : Str) : Str :=
  let name := pathFilename filepath
  match name.reverse.dropWhile (fun c => c != '.') with
  | [] => []
  | [_] => []
  | _ :: _ :: _ =>
    if name = "..".toList then []
    else '.' :: (name.reverse.takeWhile (fun c => c != '.')).reverse

/-- The `for` loop of `processFiles`, entered with the given `i` and `localCalls`:
the value of `localCalls` when the loop has ended.  The first argument bounds the
number of evaluations of the loop condition; the result is `none` when the loop has
not ended within the bound. -/
def processFilesLoop (readFile : Str → Option Str) (re : List Item) (filepaths : List Str)
    (stop : Nat) : Nat → Nat → List FunctionCall → Option (List FunctionCall)
  | 0, _, _ => none
  | fuel + 1, i, localCalls =>
    if i < stop && i < filepaths.length then
      if pathExtension (filepaths.getD i []) = ".java".toList then
        processFilesLoop readFile re filepaths stop fuel (i + 1)
          (localCalls ++ processFile readFile (filepaths.getD i []) re)
      else processFilesLoop readFile re filepaths stop fuel (i + 1) localCalls
    else some localCalls

/-- The function `processFiles` as one thread runs it while no other thread writes
the match data: the loop fills `localCalls`, then `localCalls` is appended to
`allCalls` under the lock.  The loop condition is evaluated at most
`filepaths.size() + 1` times. -/
def processFiles (readFile : Str → Option Str) (re : List Item) (filepaths : List Str)
    (allCalls : List FunctionCall) (first stop : Nat) : Option (List FunctionCall) :=
  match processFilesLoop readFile re filepaths stop (filepaths.length + 1) first [] with
  | none => none
  | some localCalls => some (allCalls ++ localCalls)

/-- What `main` passes to one worker thread: the bounds of its shard and the match
data object, named by the number of the `pcre2_match_data_create_from_pattern` call
that made it. -/
structure WorkerArgs where
  first : Nat
  stop : Nat
  matchData : Nat
  deriving DecidableEq, Repr

/-- The arguments of the `k` threads that `main` starts.  `main` creates one match
data object, before the loop, and passes it to every thread. -/
def spawnArgs (n k : Nat) : List WorkerArgs :=
  (List.range k).map
    (fun i => { first := startIdx n k i, stop := endIdx n k i, matchData := 0 })

/-! ## Definitions that state the specification -/

/-- Membership in the trimmed set, as a test. -/
def inTrimSet (c : Char) : Bool := trimSet.contains c

/-- The text `m` is what is left of `s` between a run `l` and a run `r` of trimmed
characters, and `m` is empty or begins and ends with a character that is not
trimmed. -/
def TrimmedMiddle (s m : Str) : Prop :=
  ∃ l r : Str, s = l ++ m ++ r ∧ (∀ c ∈ l, c ∈ trimSet) ∧ (∀ c ∈ r, c ∈ trimSet) ∧
    (m = [] ∨ ((∃ a, m.head? = some a ∧ a ∉ trimSet) ∧ (∃ b, m.getLast? = some b ∧ b ∉ trimSet)))

/-- The offsets at which the marker occurs in the content, in increasing order. -/
def occurrences (content : Str) : List Nat :=
  (List.range (content.length + 1)).filter (fun p => startsWith (content.drop p) marker)

/-- The Records of a content as the specification describes them: one window
match per marker occurrence, in the order of the occurrences, keeping the Records
of the windows that match. -/
def scanSpec (filepath : Str) (re : List Item) (content : Str) : List FunctionCall :=
  (occurrences content).filterMap (matchOccurrence filepath re content)

/-- The text `s` with every double quote replaced by two double quotes and every
other character unchanged. -/
def doubleQuotes : Str → Str
  | [] => []
  | c :: s => if c = '"' then '"' :: '"' :: doubleQuotes s else c :: doubleQuotes s

/-- The condition under which a repetition never gives back: if the rest fails
behind the longest run, it fails behind every shorter one. -/
def NoGiveBack (rest : List Item) (cl : CharClass) : Prop :=
  ∀ s p, matchItems rest (s.dropWhile cl.test) (p + (s.takeWhile cl.test).length) = none →
    matchItems rest s p = none

/-- The parts of a call expression: the whitespace runs, the tag and the rest of
the quoted text. -/
structure CallParts where
  w1 : Str
  w2 : Str
  tag : Str
  w3 : Str
  ident : Str
  w4 : Str

/-- The text of a call expression with the given parts:
marker, `w1`, `("`, `w2`, tag, `w3`, rest, `")`, `w4`, `;`. -/
def CallParts.text (c : CallParts) : Str :=
  marker ++ c.w1 ++ '(' :: '"' :: (c.w2 ++ c.tag ++ c.w3 ++ c.ident ++ '"' :: ')' :: (c.w4 ++ [';']))

/-- The parts are as the pattern takes them: runs of `\s`, a tag of one or more
letters, a rest without double quote that does not begin with a `\s` character. -/
def CallParts.Matches (c : CallParts) : Prop :=
  (∀ x ∈ c.w1, isSpace x = true) ∧ (∀ x ∈ c.w2, isSpace x = true) ∧
  c.tag ≠ [] ∧ (∀ x ∈ c.tag, isAlpha x = true) ∧
  c.w3 ≠ [] ∧ (∀ x ∈ c.w3, isSpace x = true) ∧
  (∀ x ∈ c.ident, x ≠ '"') ∧ (∀ x, c.ident.head? = some x → isSpace x = false) ∧
  (∀ x ∈ c.w4, isSpace x = true)

/-- The ovector of a match of the call expression with the given parts that
begins at offset `pos` (entry 0 is left to the search). -/
def CallParts.ovector (c : CallParts) (pos : Nat) : List Nat :=
  let s1 := pos + 10 + c.w1.length + 2 + c.w2.length
  let e1 := s1 + c.tag.length
  let s2 := e1 + c.w3.length
  let e2 := s2 + c.ident.length
  [0, e2 + 2 + c.w4.length + 1, s1, e1, s2, e2]

/-- The window `candidate` that `processFile` cuts at the offset `start`. -/
def candidateAt (content : Str) (start : Nat) : Str :=
  substr content start (min 100 (content.length - start))

/-- The Record that `processFile` builds from a call expression with the given
parts. -/
def CallParts.record (c : CallParts) (filepath : Str) : FunctionCall :=
  { filename := pathFilename filepath
    fullCall := c.text
    argument := trimField (c.tag ++ [' '] ++ c.ident)
    tag := trimField c.tag
    identifier := trimField c.ident }

/-- The Record that the loop body of `processFile` builds from an ovector. -/
def buildRecord (filepath content : Str) (start : Nat) (ovector : List Nat) : FunctionCall :=
  { filename := pathFilename filepath
    fullCall := substr content (start + ovector.getD 0 0) (ovector.getD 1 0 - ovector.getD 0 0)
    argument := trimField
      (substr (candidateAt content start) (ovector.getD 2 0) (ovector.getD 3 0 - ovector.getD 2 0)
        ++ [' '] ++
        substr (candidateAt content start) (ovector.getD 4 0)
          (ovector.getD 5 0 - ovector.getD 4 0))
    tag := trimField
      (substr (candidateAt content start) (ovector.getD 2 0) (ovector.getD 3 0 - ovector.getD 2 0))
    identifier := trimField
      (substr (candidateAt content start) (ovector.getD 4 0)
        (ovector.getD 5 0 - ovector.getD 4 0)) }

/-- The parts of a well-formed call: whitespace runs over space, tab, CR and LF, a
tag of one or more letters, a rest without double quote that does not begin with
one of the characters of `\s` (space, tab, LF, VT, FF, CR). -/
def CallParts.WellFormed (c : CallParts) : Prop :=
  (∀ x ∈ c.w1, x ∈ trimSet) ∧ (∀ x ∈ c.w2, x ∈ trimSet) ∧
  c.tag ≠ [] ∧ (∀ x ∈ c.tag, isAlpha x = true) ∧
  c.w3 ≠ [] ∧ (∀ x ∈ c.w3, x ∈ trimSet) ∧
  (∀ x ∈ c.ident, x ≠ '"') ∧ (∀ x, c.ident.head? = some x → isSpace x = false) ∧
  (∀ x ∈ c.w4, x ∈ trimSet)

/-- The text `call` matches the call pattern in its entirety. -/
def MatchesEntirely (call : Str) : Prop :=
  ∃ ov, matchItems callPattern call 0 = some ov ∧ ov.getD 1 0 = call.length

/-- The call `myFunction("Word <VT>id");`, whose rest begins with a vertical tab. -/
def verticalTabCall : CallParts :=
  { w1 := [], w2 := [], tag := "Word".toList, w3 := [' '], ident := "\x0bid".toList, w4 := [] }

/-- The call `myFunction("Word rest of text");`. -/
def wordCall : CallParts :=
  { w1 := [], w2 := [], tag := "Word".toList, w3 := [' '], ident := "rest of text".toList,
    w4 := [] }

/-- The call `myFunction  ("  Alpha   some value") ;`, with a line break before `;`. -/
def alphaCall : CallParts :=
  { w1 := "  ".toList, w2 := "  ".toList, tag := "Alpha".toList, w3 := "   ".toList,
    ident := "some value".toList, w4 := "\n ".toList }

/-- The call `myFunction("Word xx...x");` with `n` times `x`, of `n + 20` code units. -/
def paddedCall (n : Nat) : CallParts :=
  { w1 := [], w2 := [], tag := "Word".toList, w3 := [' '], ident := List.replicate n 'x',
    w4 := [] }

/-- The content `myFunction x; myFunction("B c");`: its first marker occurrence is
not a call, the second one is. -/
def strayMarkerContent : Str := "myFunction x; myFunction(\"B c\");".toList


/-- The text `s` with each doubled double quote replaced by one double quote. -/
def undoubleQuotes : Str → Str
  | [] => []
  | c :: rest =>
    if c = '"' then
      match rest with
      | [] => [c]
      | d :: s => if d = '"' then '"' :: undoubleQuotes s else c :: d :: undoubleQuotes s
    else c :: undoubleQuotes rest

/-- Decoding of a quoted CSV field: strip the enclosing double quotes and replace
each doubled double quote by one; `none` when the field is not enclosed in double
quotes. -/
def decodeQuotedField (field : Str) : Option Str :=
  match field with
  | [] => none
  | c :: rest =>
    if c = '"' ∧ rest.getLast? = some '"' then some (undoubleQuotes rest.dropLast) else none

/-- Reading of an unquoted CSV field: the text itself, when it has no comma, double
quote, CR or LF. -/
def decodeUnquotedField (field : Str) : Option Str :=
  if field.all (fun c => c != ',' && c != '"' && c != '\r' && c != '\n') then some field
  else none


/-- The content `myFunction("A myFunction"); myFunction("B c");`: the text captured
by its first call holds the marker. -/
def nestedMarkerContent : Str := "myFunction(\"A myFunction\"); myFunction(\"B c\");".toList


/-- The Records of one path in `processFiles`: those of `processFile` when the
extension is `.java`, none otherwise. -/
def fileCalls (readFile : Str → Option Str) (re : List Item) (filepath : Str) :
    List FunctionCall :=
  if pathExtension filepath = ".java".toList then processFile readFile filepath re else []

/-- The local list of worker `i` of `k`: the Records of the paths of its shard, in
the order of the shard. -/
def localList (readFile : Str → Option Str) (re : List Item) (filepaths : List Str)
    (k i : Nat) : List FunctionCall :=
  (shard filepaths k i).flatMap (fileCalls readFile re)

/-- The paths `f.java`, `fx.java`, `fxx.java`, ...: 32 paths. -/
def thirtyTwoPaths : List Str :=
  (List.range 32).map (fun i => 'f' :: List.replicate i 'x' ++ ".java".toList)


/-- A file system in which every file reads `myFunction("A b");`. -/
def oneCallFile : Str → Option Str := fun _ => some "myFunction(\"A b\");".toList



/-- The parts of a call when "whitespace" is space, tab, CR and LF throughout, also
for the beginning of the rest: runs over these four characters, a tag of one or
more letters, a rest without double quote that does not begin with one of the
four. -/
def CallParts.TrimSetShape (c : CallParts) : Prop :=
  (∀ x ∈ c.w1, x ∈ trimSet) ∧ (∀ x ∈ c.w2, x ∈ trimSet) ∧
  c.tag ≠ [] ∧ (∀ x ∈ c.tag, isAlpha x = true) ∧
  c.w3 ≠ [] ∧ (∀ x ∈ c.w3, x ∈ trimSet) ∧
  (∀ x ∈ c.ident, x ≠ '"') ∧ (∀ x, c.ident.head? = some x → x ∉ trimSet) ∧
  (∀ x ∈ c.w4, x ∈ trimSet)

end FindMyFunction


namespace FindMyFunction

/-! ## Searching -/

theorem startsWith_iff (s pat : Str) : startsWith s pat = true ↔ ∃ t, s = pat ++ t := by
  induction pat generalizing s with
  | nil => simp [startsWith]
  | cons d pat ih =>
    cases s with
    | nil => simp [startsWith]
    | cons c s =>
      simp only [startsWith, Bool.and_eq_true, beq_iff_eq, ih, List.cons_append,
        List.cons.injEq]
      constructor
      · rintro ⟨rfl, t, rfl⟩; exact ⟨t, rfl, rfl⟩
      · rintro ⟨t, rfl, rfl⟩; exact ⟨rfl, t, rfl⟩

theorem findAux_eq_none (pat s : Str) (i : Nat) :
    findAux pat s i = none ↔ ∀ k, k ≤ s.length → startsWith (s.drop k) pat = false := by
  induction s generalizing i with
  | nil =>
    simp only [findAux, List.length_nil, Nat.le_zero_eq, List.drop_nil]
    constructor
    · intro h k _
      by_cases h2 : startsWith [] pat = true
      · simp [h2] at h
      · simpa using h2
    · intro h
      simp [h 0 rfl]
  | cons c s ih =>
    simp only [findAux, List.length_cons]
    by_cases h2 : startsWith (c :: s) pat = true
    · simp only [h2, if_true]
      constructor
      · intro h; cases h
      · intro h
        have := h 0 (Nat.zero_le _)
        simp [h2] at this
    · simp only [h2]
      rw [if_neg (by simp), ih]
      constructor
      · intro h k hk
        cases k with
        | zero => simpa using h2
        | succ k => exact h k (by omega)
      · intro h k hk
        exact h (k + 1) (by omega)

theorem findAux_eq_some (pat s : Str) (i j : Nat) :
    findAux pat s i = some j ↔
      ∃ k, j = i + k ∧ k ≤ s.length ∧ startsWith (s.drop k) pat = true ∧
        ∀ k2, k2 < k → startsWith (s.drop k2) pat = false := by
  induction s generalizing i with
  | nil =>
    simp only [findAux, List.length_nil, Nat.le_zero_eq, List.drop_nil]
    constructor
    · intro h
      by_cases h2 : startsWith [] pat = true
      · simp only [h2, if_true, Option.some.injEq] at h
        exact ⟨0, by omega, rfl, h2, fun k2 hk2 => absurd hk2 (Nat.not_lt_zero _)⟩
      · simp [h2] at h
    · rintro ⟨k, rfl, rfl, h2, _⟩
      simp [h2]
  | cons c s ih =>
    simp only [findAux, List.length_cons]
    by_cases h2 : startsWith (c :: s) pat = true
    · simp only [h2, if_true, Option.some.injEq]
      constructor
      · intro h
        exact ⟨0, by omega, Nat.zero_le _, h2, fun k2 hk2 => absurd hk2 (Nat.not_lt_zero _)⟩
      · rintro ⟨k, rfl, _, _, hk⟩
        cases k with
        | zero => rfl
        | succ k =>
          have := hk 0 (Nat.succ_pos _)
          simp [h2] at this
    · simp only [h2]
      rw [if_neg (by simp), ih]
      constructor
      · rintro ⟨k, rfl, hk, h3, h4⟩
        refine ⟨k + 1, by omega, by omega, h3, ?_⟩
        intro k2 hk2
        cases k2 with
        | zero => simpa using h2
        | succ k2 => exact h4 k2 (by omega)
      · rintro ⟨k, rfl, hk, h3, h4⟩
        cases k with
        | zero => simp [h2] at h3
        | succ k =>
          exact ⟨k, by omega, by omega, h3, fun k2 hk2 => h4 (k2 + 1) (by omega)⟩

/-- What `s.find(pat, pos)` returns when it finds: the least offset from `pos` on at
which `pat` occurs. -/
theorem find_eq_some (s pat : Str) (pos j : Nat) :
    find s pat pos = some j ↔
      pos ≤ j ∧ j ≤ s.length ∧ startsWith (s.drop j) pat = true ∧
        ∀ j2, pos ≤ j2 → j2 < j → startsWith (s.drop j2) pat = false := by
  unfold find
  by_cases hp : pos ≤ s.length
  · rw [if_pos hp, findAux_eq_some]
    constructor
    · rintro ⟨k, rfl, hk, h3, h4⟩
      rw [List.length_drop] at hk
      rw [List.drop_drop] at h3
      refine ⟨by omega, by omega, h3, ?_⟩
      intro j2 h5 h6
      have := h4 (j2 - pos) (by omega)
      rw [List.drop_drop] at this
      rwa [show pos + (j2 - pos) = j2 by omega] at this
    · rintro ⟨h1, h2, h3, h4⟩
      refine ⟨j - pos, by omega, by rw [List.length_drop]; omega, ?_, ?_⟩
      · rw [List.drop_drop, show pos + (j - pos) = j by omega]; exact h3
      · intro k2 hk2
        rw [List.drop_drop]
        exact h4 (pos + k2) (by omega) (by omega)
  · rw [if_neg hp]
    constructor
    · intro h; cases h
    · rintro ⟨h1, h2, _, _⟩; omega

/-- When `s.find(pat, pos)` returns `npos`: `pat` occurs at no offset from `pos` on. -/
theorem find_eq_none (s pat : Str) (pos : Nat) :
    find s pat pos = none ↔
      ∀ j, pos ≤ j → j ≤ s.length → startsWith (s.drop j) pat = false := by
  unfold find
  by_cases hp : pos ≤ s.length
  · rw [if_pos hp, findAux_eq_none]
    constructor
    · intro h j h1 h2
      have := h (j - pos) (by rw [List.length_drop]; omega)
      rw [List.drop_drop] at this
      rwa [show pos + (j - pos) = j by omega] at this
    · intro h k hk
      rw [List.length_drop] at hk
      rw [List.drop_drop]
      exact h (pos + k) (by omega) (by omega)
  · rw [if_neg hp]
    simp only [true_iff]
    intro j h1 h2; omega

/-! ## The scan loop -/

theorem scanLoop_eq (filepath : Str) (re : List Item) (content : Str) (fuel pos : Nat)
    (h : content.length + 2 ≤ fuel + pos) (hpos : pos ≤ content.length + 1) :
    scanLoop filepath re content fuel pos =
      some (((List.range' pos (content.length + 1 - pos)).filter
        (fun p => startsWith (content.drop p) marker)).filterMap
        (matchOccurrence filepath re content)) := by
  induction fuel generalizing pos with
  | zero => omega
  | succ fuel ih =>
    unfold scanLoop
    cases hf : find content marker pos with
    | none =>
      rw [find_eq_none] at hf
      have : (List.range' pos (content.length + 1 - pos)).filter
          (fun p => startsWith (content.drop p) marker) = [] := by
        rw [List.filter_eq_nil_iff]
        intro a ha
        rw [List.mem_range'_1] at ha
        rw [hf a ha.1 (by omega)]
        simp
      rw [this]
      rfl
    | some start =>
      rw [find_eq_some] at hf
      obtain ⟨h1, h2, h3, h4⟩ := hf
      have hsplit : content.length + 1 - pos =
          (content.length + 1 - (start + 1)) + 1 + (start - pos) := by omega
      rw [hsplit, ← List.range'_append_1, List.range'_succ, List.filter_append,
        show pos + (start - pos) = start by omega]
      have hnil : (List.range' pos (start - pos)).filter
          (fun p => startsWith (content.drop p) marker) = [] := by
        rw [List.filter_eq_nil_iff]
        intro a ha
        rw [List.mem_range'_1] at ha
        rw [h4 a ha.1 (by omega)]
        simp
      rw [hnil, List.nil_append, List.filter_cons_of_pos (by simpa using h3),
        List.filterMap_cons]
      dsimp only
      rw [ih (start + 1) (by omega) (by omega)]
      cases matchOccurrence filepath re content start <;> rfl

theorem mem_occurrences (content : Str) (p : Nat) :
    p ∈ occurrences content ↔ p ≤ content.length ∧ startsWith (content.drop p) marker = true := by
  unfold occurrences
  rw [List.mem_filter, List.mem_range]
  constructor
  · rintro ⟨h1, h2⟩; exact ⟨by omega, h2⟩
  · rintro ⟨h1, h2⟩; exact ⟨by omega, h2⟩

theorem pairwise_occurrences (content : Str) : (occurrences content).Pairwise (· < ·) :=
  (List.pairwise_lt_range _).filter _

theorem scanLoop_eq_scanSpec (filepath : Str) (re : List Item) (content : Str) (extra : Nat) :
    scanLoop filepath re content (content.length + 2 + extra) 0 =
      some (scanSpec filepath re content) := by
  rw [scanLoop_eq filepath re content _ 0 (by omega) (by omega)]
  unfold scanSpec occurrences
  rw [List.range_eq_range', Nat.sub_zero]

theorem scanContent_eq_scanSpec (filepath : Str) (re : List Item) (content : Str) :
    scanContent filepath re content = scanSpec filepath re content := by
  unfold scanContent
  rw [scanLoop_eq_scanSpec filepath re content 0]
  rfl

/-- C6. The scan loop of `processFile` ends on every content, after at most
`content.length + 2` evaluations of its condition, and the Records it has then
pushed are those of the marker occurrences taken in strictly increasing order,
one window match per occurrence, without the occurrences whose window does not
match. -/
theorem scanLoop_refines_scanSpec (filepath : Str) (re : List Item) (content : Str) :
    scanContent filepath re content = scanSpec filepath re content ∧
      (∀ extra, scanLoop filepath re content (content.length + 2 + extra) 0 =
        some (scanSpec filepath re content)) ∧
      (occurrences content).Pairwise (· < ·) ∧
      (∀ p, p ∈ occurrences content ↔
        p ≤ content.length ∧ startsWith (content.drop p) marker = true) :=
  ⟨scanContent_eq_scanSpec filepath re content, scanLoop_eq_scanSpec filepath re content,
    pairwise_occurrences content, mem_occurrences content⟩

/-! ## Greedy repetition without backtracking

When the rest of a pattern cannot succeed after the repetition gave characters
back, the repetition takes the longest run and the rest continues behind it. -/

theorem greedy_eq (k : Str → Nat → Option (List Nat)) (cl : CharClass)
    (hk : ∀ s p, k (s.dropWhile cl.test) (p + (s.takeWhile cl.test).length) = none →
      k s p = none)
    (s : Str) (pos : Nat) :
    greedy k cl s pos = k (s.dropWhile cl.test) (pos + (s.takeWhile cl.test).length) := by
  induction s generalizing pos with
  | nil => simp [greedy]
  | cons c s ih =>
    unfold greedy
    by_cases hc : cl.test c = true
    · have hk2 := hk (c :: s) pos
      rw [List.dropWhile_cons_of_pos hc, List.takeWhile_cons_of_pos hc, List.length_cons] at hk2 ⊢
      rw [if_pos hc, ih (pos + 1)]
      have he : pos + 1 + (s.takeWhile cl.test).length =
          pos + ((s.takeWhile cl.test).length + 1) := by omega
      rw [he]
      cases hv : k (s.dropWhile cl.test) (pos + ((s.takeWhile cl.test).length + 1)) with
      | none => exact hk2 hv
      | some ov => rfl
    · rw [if_neg hc, List.dropWhile_cons_of_neg hc, List.takeWhile_cons_of_neg hc]
      rfl

theorem takeWhile_of_head (p : Char → Bool) (s : Str)
    (h : ∀ c, s.head? = some c → p c = false) : s.takeWhile p = [] ∧ s.dropWhile p = s := by
  cases s with
  | nil => exact ⟨rfl, rfl⟩
  | cons x s =>
    have hx : ¬ (p x = true) := by simp [h x rfl]
    exact ⟨List.takeWhile_cons_of_neg hx, List.dropWhile_cons_of_neg hx⟩

theorem takeWhile_run (p : Char → Bool) (w s : Str) (hw : ∀ c ∈ w, p c = true)
    (h : ∀ c, s.head? = some c → p c = false) :
    (w ++ s).takeWhile p = w ∧ (w ++ s).dropWhile p = s := by
  obtain ⟨h1, h2⟩ := takeWhile_of_head p s h
  constructor
  · rw [List.takeWhile_append_of_pos hw, h1, List.append_nil]
  · rw [List.dropWhile_append_of_pos hw, h2]

theorem head_dropWhile_false (p : Char → Bool) (s : Str) :
    ∀ c, (s.dropWhile p).head? = some c → p c = false := by
  intro c hc
  induction s with
  | nil => simp at hc
  | cons x s ih =>
    by_cases hx : p x = true
    · rw [List.dropWhile_cons_of_pos hx] at hc; exact ih hc
    · rw [List.dropWhile_cons_of_neg hx] at hc
      simp only [List.head?_cons, Option.some.injEq] at hc
      subst hc
      simpa using hx

theorem noGiveBack_of_fail (rest : List Item) (cl : CharClass)
    (h : ∀ c s p, cl.test c = true → matchItems rest (c :: s) p = none) :
    NoGiveBack rest cl := by
  intro s p hnone
  cases s with
  | nil => simpa using hnone
  | cons c s =>
    by_cases hc : cl.test c = true
    · exact h c s p hc
    · rw [List.dropWhile_cons_of_neg hc, List.takeWhile_cons_of_neg hc] at hnone
      simpa using hnone

theorem matchItems_star (rest : List Item) (cl : CharClass) (hk : NoGiveBack rest cl)
    (s : Str) (pos : Nat) :
    matchItems (.star cl :: rest) s pos =
      matchItems rest (s.dropWhile cl.test) (pos + (s.takeWhile cl.test).length) := by
  show greedy (fun s1 p1 => matchItems rest s1 p1) cl s pos = _
  exact greedy_eq _ cl hk s pos

theorem matchItems_star_iff (rest : List Item) (cl : CharClass) (hk : NoGiveBack rest cl)
    (s : Str) (pos : Nat) (ov : List Nat) :
    matchItems (.star cl :: rest) s pos = some ov ↔
      ∃ w s2, s = w ++ s2 ∧ (∀ c ∈ w, cl.test c = true) ∧
        (∀ c, s2.head? = some c → cl.test c = false) ∧
        matchItems rest s2 (pos + w.length) = some ov := by
  rw [matchItems_star rest cl hk]
  constructor
  · intro h
    exact ⟨s.takeWhile cl.test, s.dropWhile cl.test, (List.takeWhile_append_dropWhile _ _).symm,
      fun c hc => List.mem_takeWhile_imp hc, head_dropWhile_false _ _, h⟩
  · rintro ⟨w, s2, rfl, hw, hs2, h⟩
    obtain ⟨h1, h2⟩ := takeWhile_run cl.test w s2 hw hs2
    rw [h1, h2]
    exact h

theorem matchItems_plus_iff (rest : List Item) (cl : CharClass) (hk : NoGiveBack rest cl)
    (s : Str) (pos : Nat) (ov : List Nat) :
    matchItems (.plus cl :: rest) s pos = some ov ↔
      ∃ w s2, s = w ++ s2 ∧ w ≠ [] ∧ (∀ c ∈ w, cl.test c = true) ∧
        (∀ c, s2.head? = some c → cl.test c = false) ∧
        matchItems rest s2 (pos + w.length) = some ov := by
  cases s with
  | nil =>
    constructor
    · intro h; cases h
    · rintro ⟨w, s2, h1, h2, _⟩
      cases w with
      | nil => exact absurd rfl h2
      | cons x w => cases h1
  | cons x xs =>
    have hdef : matchItems (.plus cl :: rest) (x :: xs) pos =
        if cl.test x = true then matchItems (.star cl :: rest) xs (pos + 1) else none := rfl
    rw [hdef]
    by_cases hx : cl.test x = true
    · rw [if_pos hx, matchItems_star_iff rest cl hk]
      constructor
      · rintro ⟨w, s2, rfl, hw, hs2, h⟩
        refine ⟨x :: w, s2, rfl, by simp, ?_, hs2, ?_⟩
        · intro c hc
          rcases List.mem_cons.mp hc with rfl | hc
          · exact hx
          · exact hw c hc
        · rw [List.length_cons, show pos + (w.length + 1) = pos + 1 + w.length by omega]
          exact h
      · rintro ⟨w, s2, h1, h2, hw, hs2, h⟩
        cases w with
        | nil => exact absurd rfl h2
        | cons y w =>
          rw [List.cons_append, List.cons.injEq] at h1
          obtain ⟨rfl, rfl⟩ := h1
          refine ⟨w, s2, rfl, fun c hc => hw c (List.mem_cons_of_mem _ hc), hs2, ?_⟩
          rw [List.length_cons, show pos + (w.length + 1) = pos + 1 + w.length by omega] at h
          exact h
    · rw [if_neg hx]
      constructor
      · intro h; cases h
      · rintro ⟨w, s2, h1, h2, hw, _⟩
        cases w with
        | nil => exact absurd rfl h2
        | cons y w =>
          rw [List.cons_append, List.cons.injEq] at h1
          obtain ⟨rfl, rfl⟩ := h1
          exact absurd (hw x (List.mem_cons_self _ _)) hx

theorem matchItems_chr_iff (rest : List Item) (c : Char) (s : Str) (pos : Nat) (ov : List Nat) :
    matchItems (.chr c :: rest) s pos = some ov ↔
      ∃ s2, s = c :: s2 ∧ matchItems rest s2 (pos + 1) = some ov := by
  cases s with
  | nil =>
    constructor
    · intro h; cases h
    · rintro ⟨s2, h, _⟩; cases h
  | cons x xs =>
    have hdef : matchItems (.chr c :: rest) (x :: xs) pos =
        if x = c then matchItems rest xs (pos + 1) else none := rfl
    rw [hdef]
    by_cases hx : x = c
    · rw [if_pos hx]
      constructor
      · intro h; exact ⟨xs, by rw [hx], h⟩
      · rintro ⟨s2, h1, h2⟩
        rw [List.cons.injEq] at h1
        rw [h1.2]; exact h2
    · rw [if_neg hx]
      constructor
      · intro h; cases h
      · rintro ⟨s2, h1, _⟩
        rw [List.cons.injEq] at h1
        exact absurd h1.1 hx

theorem matchItems_chr_fail (rest : List Item) (c x : Char) (s : Str) (pos : Nat) (h : x ≠ c) :
    matchItems (.chr c :: rest) (x :: s) pos = none := by
  show (if x = c then matchItems rest s (pos + 1) else none) = none
  rw [if_neg h]

theorem matchItems_capStart_iff (rest : List Item) (n : Nat) (s : Str) (pos : Nat)
    (ov : List Nat) :
    matchItems (.capStart n :: rest) s pos = some ov ↔
      ∃ ov2, matchItems rest s pos = some ov2 ∧ ov = ov2.set (2 * n) pos := by
  show (matchItems rest s pos).map (fun ov => ov.set (2 * n) pos) = some ov ↔ _
  rw [Option.map_eq_some']
  constructor
  · rintro ⟨a, h1, h2⟩; exact ⟨a, h1, h2.symm⟩
  · rintro ⟨a, h1, h2⟩; exact ⟨a, h1, h2.symm⟩

theorem matchItems_capEnd_iff (rest : List Item) (n : Nat) (s : Str) (pos : Nat)
    (ov : List Nat) :
    matchItems (.capEnd n :: rest) s pos = some ov ↔
      ∃ ov2, matchItems rest s pos = some ov2 ∧ ov = ov2.set (2 * n + 1) pos := by
  show (matchItems rest s pos).map (fun ov => ov.set (2 * n + 1) pos) = some ov ↔ _
  rw [Option.map_eq_some']
  constructor
  · rintro ⟨a, h1, h2⟩; exact ⟨a, h1, h2.symm⟩
  · rintro ⟨a, h1, h2⟩; exact ⟨a, h1, h2.symm⟩

theorem matchItems_cap_none (rest : List Item) (s : Str) (pos : Nat)
    (h : matchItems rest s pos = none) (n : Nat) :
    matchItems (.capStart n :: rest) s pos = none ∧
      matchItems (.capEnd n :: rest) s pos = none := by
  constructor
  · show (matchItems rest s pos).map _ = none
    rw [h]; rfl
  · show (matchItems rest s pos).map _ = none
    rw [h]; rfl

theorem matchItems_plus_fail (rest : List Item) (cl : CharClass) (x : Char) (s : Str)
    (pos : Nat) (h : cl.test x = false) : matchItems (.plus cl :: rest) (x :: s) pos = none := by
  show (if cl.test x = true then _ else none) = none
  rw [if_neg (by simp [h])]

/-! ## The call pattern, from its end to its beginning -/

theorem matchItems_nil_iff (s : Str) (pos : Nat) (ov : List Nat) :
    matchItems [] s pos = some ov ↔ ov = [0, pos, 0, 0, 0, 0] := by
  show some [0, pos, 0, 0, 0, 0] = some ov ↔ _
  rw [Option.some.injEq]
  exact eq_comm

theorem isSpace_ne (c d : Char) (h : isSpace c = true) (hd : isSpace d = false) : c ≠ d := by
  rintro rfl
  rw [h] at hd
  cases hd

theorem isSpace_not_alpha (c : Char) (h : isSpace c = true) : isAlpha c = false := by
  simp only [isSpace, Bool.or_eq_true, beq_iff_eq] at h
  rcases h with ((((h | h) | h) | h) | h) | h <;> subst h <;> decide

theorem isAlpha_not_space (c : Char) (h : isAlpha c = true) : isSpace c = false := by
  cases hs : isSpace c with
  | false => rfl
  | true => rw [isSpace_not_alpha c hs] at h; cases h

theorem isSpace_notQuote (c : Char) (h : isSpace c = true) : notQuote c = true := by
  simp only [isSpace, Bool.or_eq_true, beq_iff_eq] at h
  rcases h with ((((h | h) | h) | h) | h) | h <;> subst h <;> decide

theorem isAlpha_notQuote (c : Char) (h : isAlpha c = true) : notQuote c = true := by
  cases hq : notQuote c with
  | true => rfl
  | false =>
    have : c = '"' := by simpa [notQuote] using hq
    subst this
    exact absurd h (by decide)

theorem noGiveBack_space_chr (rest : List Item) (d : Char) (hd : isSpace d = false) :
    NoGiveBack (.chr d :: rest) .space :=
  noGiveBack_of_fail _ _ (fun c s p hc => matchItems_chr_fail rest d c s p (isSpace_ne c d hc hd))

/-- The end of the pattern: `"\)\s*;`. -/
theorem matchItems_tailE (s : Str) (pos : Nat) (ov : List Nat) :
    matchItems [.chr '"', .chr ')', .star .space, .chr ';'] s pos = some ov ↔
      ∃ w4 rest, s = '"' :: ')' :: (w4 ++ ';' :: rest) ∧ (∀ x ∈ w4, isSpace x = true) ∧
        ov = [0, pos + 2 + w4.length + 1, 0, 0, 0, 0] := by
  rw [matchItems_chr_iff]
  simp only [matchItems_chr_iff, matchItems_star_iff _ _ (noGiveBack_space_chr [] ';' (by decide)),
    matchItems_nil_iff]
  constructor
  · rintro ⟨_, rfl, _, rfl, w4, _, rfl, hw, _, rest, rfl, rfl⟩
    exact ⟨w4, rest, rfl, hw, rfl⟩
  · rintro ⟨w4, rest, rfl, hw, rfl⟩
    refine ⟨_, rfl, _, rfl, w4, _, rfl, hw, ?_, rest, rfl, rfl⟩
    intro c hc
    simp only [List.head?_cons, Option.some.injEq] at hc
    subst hc
    decide

theorem noGiveBack_notQuote_tailE :
    NoGiveBack [.capEnd 2, .chr '"', .chr ')', .star .space, .chr ';'] .notQuote := by
  apply noGiveBack_of_fail
  intro c s p hc
  have hne : c ≠ '"' := by simpa [CharClass.test, notQuote] using hc
  exact (matchItems_cap_none _ _ _ (matchItems_chr_fail _ '"' c s p hne) 2).2

/-- The second group and the end of the pattern: `([^"]*)"\)\s*;`. -/
theorem matchItems_tailD (s : Str) (pos : Nat) (ov : List Nat) :
    matchItems [.capStart 2, .star .notQuote, .capEnd 2,
        .chr '"', .chr ')', .star .space, .chr ';'] s pos = some ov ↔
      ∃ r w4 rest, s = r ++ '"' :: ')' :: (w4 ++ ';' :: rest) ∧ (∀ x ∈ r, x ≠ '"') ∧
        (∀ x ∈ w4, isSpace x = true) ∧
        ov = [0, pos + r.length + 2 + w4.length + 1, 0, 0, pos, pos + r.length] := by
  rw [matchItems_capStart_iff]
  simp only [matchItems_star_iff _ _ noGiveBack_notQuote_tailE, matchItems_capEnd_iff,
    matchItems_tailE]
  constructor
  · rintro ⟨_, ⟨r, _, rfl, hr, _, _, ⟨w4, rest, rfl, hw, rfl⟩, rfl⟩, rfl⟩
    refine ⟨r, w4, rest, rfl, ?_, hw, ?_⟩
    · intro x hx
      simpa [CharClass.test, notQuote] using hr x hx
    · simp [List.set]
  · rintro ⟨r, w4, rest, rfl, hr, hw, rfl⟩
    refine ⟨_, ⟨r, _, rfl, ?_, ?_, _, ⟨w4, rest, rfl, hw, rfl⟩, rfl⟩, ?_⟩
    · intro x hx
      simpa [CharClass.test, notQuote] using hr x hx
    · intro c hc
      simp only [List.head?_cons, Option.some.injEq] at hc
      subst hc
      decide
    · simp [List.set]

theorem dropWhile_append_stop (p : Char → Bool) (r t : Str) (q : Char) (hq : p q = false) :
    (r ++ q :: t).dropWhile p = r.dropWhile p ++ q :: t := by
  induction r with
  | nil => exact List.dropWhile_cons_of_neg (by simp [hq])
  | cons x r ih =>
    by_cases hx : p x = true
    · rw [List.cons_append, List.dropWhile_cons_of_pos hx, List.dropWhile_cons_of_pos hx, ih]
    · rw [List.cons_append, List.dropWhile_cons_of_neg hx, List.dropWhile_cons_of_neg hx,
        List.cons_append]

theorem mem_dropWhile_imp (p : Char → Bool) (r : Str) (x : Char) (h : x ∈ r.dropWhile p) :
    x ∈ r :=
  (List.dropWhile_suffix p).subset h

/-- The run `\s+` before the second group never gives back: the second group ends
at the first double quote wherever it begins. -/
theorem noGiveBack_space_tailD :
    NoGiveBack [.capStart 2, .star .notQuote, .capEnd 2,
      .chr '"', .chr ')', .star .space, .chr ';'] .space := by
  intro s p hnone
  cases hm : matchItems [.capStart 2, .star .notQuote, .capEnd 2,
      .chr '"', .chr ')', .star .space, .chr ';'] s p with
  | none => rfl
  | some ov =>
    exfalso
    obtain ⟨r, w4, rest, rfl, hr, hw, _⟩ := (matchItems_tailD s p ov).mp hm
    have hd : (r ++ '"' :: ')' :: (w4 ++ ';' :: rest)).dropWhile (CharClass.test .space) =
        r.dropWhile isSpace ++ '"' :: ')' :: (w4 ++ ';' :: rest) :=
      dropWhile_append_stop isSpace r _ '"' (by decide)
    rw [hd] at hnone
    have hsome := (matchItems_tailD (r.dropWhile isSpace ++ '"' :: ')' :: (w4 ++ ';' :: rest))
      (p + ((r ++ '"' :: ')' :: (w4 ++ ';' :: rest)).takeWhile (CharClass.test .space)).length)
      _).mpr ⟨r.dropWhile isSpace, w4, rest, rfl,
        fun x hx => hr x (mem_dropWhile_imp _ _ _ hx), hw, rfl⟩
    rw [hnone] at hsome
    cases hsome

/-- From the run between the groups on: `\s+([^"]*)"\)\s*;`. -/
theorem matchItems_tailC (s : Str) (pos : Nat) (ov : List Nat) :
    matchItems [.plus .space, .capStart 2, .star .notQuote, .capEnd 2,
        .chr '"', .chr ')', .star .space, .chr ';'] s pos = some ov ↔
      ∃ w3 r w4 rest, s = w3 ++ (r ++ '"' :: ')' :: (w4 ++ ';' :: rest)) ∧
        w3 ≠ [] ∧ (∀ x ∈ w3, isSpace x = true) ∧
        (∀ x ∈ r, x ≠ '"') ∧ (∀ x, r.head? = some x → isSpace x = false) ∧
        (∀ x ∈ w4, isSpace x = true) ∧
        ov = [0, pos + w3.length + r.length + 2 + w4.length + 1, 0, 0,
          pos + w3.length, pos + w3.length + r.length] := by
  rw [matchItems_plus_iff _ _ noGiveBack_space_tailD]
  simp only [matchItems_tailD]
  constructor
  · rintro ⟨w3, _, rfl, hne, hw3, hhead, r, w4, rest, rfl, hr, hw4, rfl⟩
    refine ⟨w3, r, w4, rest, rfl, hne, hw3, hr, ?_, hw4, rfl⟩
    intro x hx
    apply hhead x
    cases r with
    | nil => cases hx
    | cons y r => exact hx
  · rintro ⟨w3, r, w4, rest, rfl, hne, hw3, hr, hhead, hw4, rfl⟩
    refine ⟨w3, _, rfl, hne, hw3, ?_, r, w4, rest, rfl, hr, hw4, rfl⟩
    intro x hx
    cases r with
    | nil =>
      simp only [List.nil_append, List.head?_cons, Option.some.injEq] at hx
      subst hx
      decide
    | cons y r => exact hhead x hx

theorem noGiveBack_alpha_tailC :
    NoGiveBack [.capEnd 1, .plus .space, .capStart 2, .star .notQuote, .capEnd 2,
      .chr '"', .chr ')', .star .space, .chr ';'] .alpha := by
  apply noGiveBack_of_fail
  intro c s p hc
  exact (matchItems_cap_none _ _ _
    (matchItems_plus_fail _ .space c s p (isAlpha_not_space c hc)) 1).2

/-- From the first group on: `([a-zA-Z]+)\s+([^"]*)"\)\s*;`. -/
theorem matchItems_tailB (s : Str) (pos : Nat) (ov : List Nat) :
    matchItems [.capStart 1, .plus .alpha, .capEnd 1,
        .plus .space, .capStart 2, .star .notQuote, .capEnd 2,
        .chr '"', .chr ')', .star .space, .chr ';'] s pos = some ov ↔
      ∃ t w3 r w4 rest, s = t ++ (w3 ++ (r ++ '"' :: ')' :: (w4 ++ ';' :: rest))) ∧
        t ≠ [] ∧ (∀ x ∈ t, isAlpha x = true) ∧
        w3 ≠ [] ∧ (∀ x ∈ w3, isSpace x = true) ∧
        (∀ x ∈ r, x ≠ '"') ∧ (∀ x, r.head? = some x → isSpace x = false) ∧
        (∀ x ∈ w4, isSpace x = true) ∧
        ov = [0, pos + t.length + w3.length + r.length + 2 + w4.length + 1,
          pos, pos + t.length,
          pos + t.length + w3.length, pos + t.length + w3.length + r.length] := by
  rw [matchItems_capStart_iff]
  simp only [matchItems_plus_iff _ _ noGiveBack_alpha_tailC, matchItems_capEnd_iff,
    matchItems_tailC]
  constructor
  · rintro ⟨_, ⟨t, _, rfl, hne, ht, _, _, ⟨w3, r, w4, rest, rfl, hne3, hw3, hr, hhead, hw4, rfl⟩,
      rfl⟩, rfl⟩
    refine ⟨t, w3, r, w4, rest, rfl, hne, ht, hne3, hw3, hr, hhead, hw4, ?_⟩
    simp [List.set]
  · rintro ⟨t, w3, r, w4, rest, rfl, hne, ht, hne3, hw3, hr, hhead, hw4, rfl⟩
    refine ⟨_, ⟨t, _, rfl, hne, ht, ?_, _,
      ⟨w3, r, w4, rest, rfl, hne3, hw3, hr, hhead, hw4, rfl⟩, rfl⟩, ?_⟩
    · intro x hx
      cases w3 with
      | nil => exact absurd rfl hne3
      | cons y w3 =>
        simp only [List.cons_append, List.head?_cons, Option.some.injEq] at hx
        subst hx
        exact isSpace_not_alpha _ (hw3 _ (List.mem_cons_self _ _))
    · simp [List.set]

theorem noGiveBack_space_tailB :
    NoGiveBack [.capStart 1, .plus .alpha, .capEnd 1,
      .plus .space, .capStart 2, .star .notQuote, .capEnd 2,
      .chr '"', .chr ')', .star .space, .chr ';'] .space := by
  apply noGiveBack_of_fail
  intro c s p hc
  exact (matchItems_cap_none _ _ _
    (matchItems_plus_fail _ .alpha c s p (isSpace_not_alpha c hc)) 1).1

/-- The pattern behind the marker: `\s*\("\s*([a-zA-Z]+)\s+([^"]*)"\)\s*;`. -/
theorem matchItems_tailA (s : Str) (pos : Nat) (ov : List Nat) :
    matchItems [.star .space, .chr '(', .chr '"', .star .space,
        .capStart 1, .plus .alpha, .capEnd 1,
        .plus .space, .capStart 2, .star .notQuote, .capEnd 2,
        .chr '"', .chr ')', .star .space, .chr ';'] s pos = some ov ↔
      ∃ w1 w2 t w3 r w4 rest,
        s = w1 ++ '(' :: '"' :: (w2 ++ (t ++ (w3 ++ (r ++ '"' :: ')' :: (w4 ++ ';' :: rest))))) ∧
        (∀ x ∈ w1, isSpace x = true) ∧ (∀ x ∈ w2, isSpace x = true) ∧
        t ≠ [] ∧ (∀ x ∈ t, isAlpha x = true) ∧
        w3 ≠ [] ∧ (∀ x ∈ w3, isSpace x = true) ∧
        (∀ x ∈ r, x ≠ '"') ∧ (∀ x, r.head? = some x → isSpace x = false) ∧
        (∀ x ∈ w4, isSpace x = true) ∧
        ov = [0, pos + w1.length + 2 + w2.length + t.length + w3.length + r.length + 2 +
            w4.length + 1,
          pos + w1.length + 2 + w2.length, pos + w1.length + 2 + w2.length + t.length,
          pos + w1.length + 2 + w2.length + t.length + w3.length,
          pos + w1.length + 2 + w2.length + t.length + w3.length + r.length] := by
  rw [matchItems_star_iff _ _ (noGiveBack_space_chr _ '(' (by decide))]
  simp only [matchItems_chr_iff, matchItems_star_iff _ _ noGiveBack_space_tailB,
    matchItems_tailB]
  constructor
  · rintro ⟨w1, _, rfl, hw1, _, _, rfl, _, rfl, w2, _, rfl, hw2, _,
      t, w3, r, w4, rest, rfl, hne, ht, hne3, hw3, hr, hhead, hw4, rfl⟩
    exact ⟨w1, w2, t, w3, r, w4, rest, rfl, hw1, hw2, hne, ht, hne3, hw3, hr, hhead, hw4, rfl⟩
  · rintro ⟨w1, w2, t, w3, r, w4, rest, rfl, hw1, hw2, hne, ht, hne3, hw3, hr, hhead, hw4, rfl⟩
    refine ⟨w1, _, rfl, hw1, ?_, _, rfl, _, rfl, w2, _, rfl, hw2, ?_,
      t, w3, r, w4, rest, rfl, hne, ht, hne3, hw3, hr, hhead, hw4, rfl⟩
    · intro x hx
      simp only [List.head?_cons, Option.some.injEq] at hx
      subst hx
      decide
    · intro x hx
      cases t with
      | nil => exact absurd rfl hne
      | cons y t =>
        simp only [List.cons_append, List.head?_cons, Option.some.injEq] at hx
        subst hx
        exact isAlpha_not_space _ (ht _ (List.mem_cons_self _ _))

/-- The match of the whole pattern at a given offset: it succeeds exactly on the
texts that begin with a call expression whose parts are as the pattern takes them,
and then reports the offsets of these parts. -/
theorem matchItems_callPattern_iff (s : Str) (pos : Nat) (ov : List Nat) :
    matchItems callPattern s pos = some ov ↔
      ∃ (c : CallParts) (rest : Str), c.Matches ∧ s = c.text ++ rest ∧ ov = c.ovector pos := by
  have hpat : callPattern =
      [.chr 'm', .chr 'y', .chr 'F', .chr 'u', .chr 'n', .chr 'c', .chr 't', .chr 'i',
        .chr 'o', .chr 'n',
        .star .space, .chr '(', .chr '"', .star .space,
        .capStart 1, .plus .alpha, .capEnd 1,
        .plus .space, .capStart 2, .star .notQuote, .capEnd 2,
        .chr '"', .chr ')', .star .space, .chr ';'] := rfl
  rw [hpat]
  simp only [matchItems_chr_iff, matchItems_tailA]
  constructor
  · rintro ⟨_, rfl, _, rfl, _, rfl, _, rfl, _, rfl, _, rfl, _, rfl, _, rfl, _, rfl, _, rfl,
      w1, w2, t, w3, r, w4, rest, rfl, hw1, hw2, hne, ht, hne3, hw3, hr, hhead, hw4, rfl⟩
    refine ⟨⟨w1, w2, t, w3, r, w4⟩, rest, ⟨hw1, hw2, hne, ht, hne3, hw3, hr, hhead, hw4⟩, ?_, ?_⟩
    · simp [CallParts.text, marker]
    · simp only [CallParts.ovector]
  · rintro ⟨⟨w1, w2, t, w3, r, w4⟩, rest, ⟨hw1, hw2, hne, ht, hne3, hw3, hr, hhead, hw4⟩, rfl, rfl⟩
    refine ⟨_, rfl, _, rfl, _, rfl, _, rfl, _, rfl, _, rfl, _, rfl, _, rfl, _, rfl, _, rfl,
      w1, w2, t, w3, r, w4, rest, ?_, hw1, hw2, hne, ht, hne3, hw3, hr, hhead, hw4, ?_⟩
    · simp [CallParts.text, marker]
    · simp only [CallParts.ovector]

/-! ## The unanchored search and the window -/

theorem searchFrom_eq_some (items : List Item) (s : Str) (pos : Nat) (ov : List Nat) :
    searchFrom items s pos = some ov ↔
      ∃ a ov2, a ≤ s.length ∧ matchItems items (s.drop a) (pos + a) = some ov2 ∧
        ov = ov2.set 0 (pos + a) ∧
        ∀ a2, a2 < a → matchItems items (s.drop a2) (pos + a2) = none := by
  induction s generalizing pos with
  | nil =>
    show (matchItems items [] pos).map (fun ov => ov.set 0 pos) = some ov ↔ _
    rw [Option.map_eq_some']
    constructor
    · rintro ⟨ov2, h1, h2⟩
      exact ⟨0, ov2, Nat.le_refl _, h1, h2.symm, fun a2 ha2 => absurd ha2 (Nat.not_lt_zero _)⟩
    · rintro ⟨a, ov2, ha, h1, h2, _⟩
      have : a = 0 := by simpa using ha
      subst this
      exact ⟨ov2, h1, h2.symm⟩
  | cons c s ih =>
    unfold searchFrom
    cases hm : matchItems items (c :: s) pos with
    | some ov1 =>
      dsimp only
      constructor
      · intro h
        exact ⟨0, ov1, Nat.zero_le _, hm, (Option.some.inj h).symm,
          fun a2 ha2 => absurd ha2 (Nat.not_lt_zero _)⟩
      · rintro ⟨a, ov2, _, h1, h2, h3⟩
        cases a with
        | zero =>
          have h1b : matchItems items (c :: s) pos = some ov2 := h1
          rw [hm] at h1b
          rw [h2, ← Option.some.inj h1b]
          rfl
        | succ a =>
          have := h3 0 (Nat.succ_pos _)
          have h0 : matchItems items (c :: s) pos = none := this
          rw [hm] at h0
          cases h0
    | none =>
      dsimp only
      rw [ih]
      constructor
      · rintro ⟨a, ov2, ha, h1, h2, h3⟩
        refine ⟨a + 1, ov2, Nat.succ_le_succ ha, ?_, ?_, ?_⟩
        · rw [show pos + (a + 1) = pos + 1 + a by omega]; exact h1
        · rw [show pos + (a + 1) = pos + 1 + a by omega]; exact h2
        · intro a2 ha2
          cases a2 with
          | zero => exact hm
          | succ a2 =>
            rw [show pos + (a2 + 1) = pos + 1 + a2 by omega]
            exact h3 a2 (by omega)
      · rintro ⟨a, ov2, ha, h1, h2, h3⟩
        cases a with
        | zero =>
          have h1b : matchItems items (c :: s) pos = some ov2 := h1
          rw [hm] at h1b
          cases h1b
        | succ a =>
          refine ⟨a, ov2, Nat.le_of_succ_le_succ ha, ?_, ?_, ?_⟩
          · rw [show pos + 1 + a = pos + (a + 1) by omega]; exact h1
          · rw [show pos + 1 + a = pos + (a + 1) by omega]; exact h2
          · intro a2 ha2
            have := h3 (a2 + 1) (by omega)
            rw [show pos + 1 + a2 = pos + (a2 + 1) by omega]
            exact this

theorem searchFrom_eq_none (items : List Item) (s : Str) (pos : Nat) :
    searchFrom items s pos = none ↔
      ∀ a, a ≤ s.length → matchItems items (s.drop a) (pos + a) = none := by
  constructor
  · intro h a ha
    induction a using Nat.strong_induction_on with
    | _ a iha =>
      cases hm : matchItems items (s.drop a) (pos + a) with
      | none => rfl
      | some ov2 =>
        have := (searchFrom_eq_some items s pos (ov2.set 0 (pos + a))).mpr
          ⟨a, ov2, ha, hm, rfl, fun a2 ha2 => iha a2 ha2 (by omega)⟩
        rw [h] at this
        cases this
  · intro h
    cases hs : searchFrom items s pos with
    | none => rfl
    | some ov =>
      obtain ⟨a, ov2, ha, h1, _, _⟩ := (searchFrom_eq_some items s pos ov).mp hs
      rw [h a ha] at h1
      cases h1

theorem substr_middle (a b c : Str) : substr (a ++ (b ++ c)) a.length b.length = b := by
  unfold substr
  rw [List.drop_left, List.take_left]

theorem substr_middle_of_eq (s a b c : Str) (n m : Nat) (hs : s = a ++ (b ++ c))
    (hn : n = a.length) (hm : m = b.length) : substr s n m = b := by
  subst hs hn hm
  exact substr_middle a b c

theorem candidateAt_prefix (content : Str) (start : Nat) :
    ∃ t, content.drop start = candidateAt content start ++ t :=
  ⟨(content.drop start).drop (min 100 (content.length - start)),
    (List.take_append_drop _ _).symm⟩

theorem candidateAt_length (content : Str) (start : Nat) :
    (candidateAt content start).length = min 100 (content.length - start) := by
  unfold candidateAt substr
  rw [List.length_take, List.length_drop]
  omega

theorem matchOccurrence_eq (filepath : Str) (re : List Item) (content : Str) (start : Nat) :
    matchOccurrence filepath re content start =
      (pcre2_match re (candidateAt content start)).map (buildRecord filepath content start) := by
  unfold matchOccurrence
  show (match pcre2_match re (candidateAt content start) with
    | none => none
    | some ovector => some (buildRecord filepath content start ovector)) = _
  cases pcre2_match re (candidateAt content start) <;> rfl

theorem CallParts.text_length (c : CallParts) :
    c.text.length = 10 + c.w1.length + 2 + c.w2.length + c.tag.length + c.w3.length +
      c.ident.length + 2 + c.w4.length + 1 := by
  simp [CallParts.text, marker]
  omega

/-- The Record built from the ovector of a match at window offset `a` is the Record
of the parts of the matched call expression. -/
theorem buildRecord_ovector (filepath content : Str) (start a : Nat) (c : CallParts)
    (rest : Str) (h : (candidateAt content start).drop a = c.text ++ rest) :
    buildRecord filepath content start ((c.ovector (0 + a)).set 0 (0 + a)) =
      c.record filepath := by
  have hne : c.text ++ rest ≠ [] := by simp [CallParts.text, marker]
  have ha : a < (candidateAt content start).length := by
    by_contra hge
    rw [List.drop_eq_nil_of_le (by omega)] at h
    exact hne h.symm
  obtain ⟨t, ht⟩ := candidateAt_prefix content start
  have hwin : candidateAt content start =
      (candidateAt content start).take a ++ (c.text ++ rest) := by
    rw [← h, List.take_append_drop]
  have hlen : ((candidateAt content start).take a).length = a := by
    rw [List.length_take]; omega
  have hcontent : content.drop (start + a) = c.text ++ (rest ++ t) := by
    rw [← List.drop_drop, ht, List.drop_append_of_le_length (by omega), h, List.append_assoc]
  have hfull : substr content (start + a) c.text.length = c.text := by
    unfold substr
    rw [hcontent, List.take_left]
  have htag : substr (candidateAt content start) (a + 10 + c.w1.length + 2 + c.w2.length)
      c.tag.length = c.tag := by
    apply substr_middle_of_eq _
      ((candidateAt content start).take a ++ (marker ++ c.w1 ++ '(' :: '"' :: c.w2)) c.tag
      (c.w3 ++ c.ident ++ '"' :: ')' :: (c.w4 ++ [';']) ++ rest)
    · conv_lhs => rw [hwin]
      simp [CallParts.text]
    · simp [hlen, marker]; omega
    · rfl
  have hid : substr (candidateAt content start)
      (a + 10 + c.w1.length + 2 + c.w2.length + c.tag.length + c.w3.length)
      c.ident.length = c.ident := by
    apply substr_middle_of_eq _
      ((candidateAt content start).take a ++
        (marker ++ c.w1 ++ '(' :: '"' :: (c.w2 ++ c.tag ++ c.w3))) c.ident
      ('"' :: ')' :: (c.w4 ++ [';']) ++ rest)
    · conv_lhs => rw [hwin]
      simp [CallParts.text]
    · simp [hlen, marker]; omega
    · rfl
  have htl := c.text_length
  have e0 : ((c.ovector (0 + a)).set 0 (0 + a)).getD 0 0 = a := by
    simp [CallParts.ovector]
  have e1 : ((c.ovector (0 + a)).set 0 (0 + a)).getD 1 0 = a + c.text.length := by
    simp [CallParts.ovector]; omega
  have e2 : ((c.ovector (0 + a)).set 0 (0 + a)).getD 2 0 =
      a + 10 + c.w1.length + 2 + c.w2.length := by
    simp [CallParts.ovector]
  have e3 : ((c.ovector (0 + a)).set 0 (0 + a)).getD 3 0 =
      a + 10 + c.w1.length + 2 + c.w2.length + c.tag.length := by
    simp [CallParts.ovector]
  have e4 : ((c.ovector (0 + a)).set 0 (0 + a)).getD 4 0 =
      a + 10 + c.w1.length + 2 + c.w2.length + c.tag.length + c.w3.length := by
    simp [CallParts.ovector]
  have e5 : ((c.ovector (0 + a)).set 0 (0 + a)).getD 5 0 =
      a + 10 + c.w1.length + 2 + c.w2.length + c.tag.length + c.w3.length + c.ident.length := by
    simp [CallParts.ovector]
  unfold buildRecord CallParts.record
  rw [e0, e1, e2, e3, e4, e5, Nat.add_sub_cancel_left, Nat.add_sub_cancel_left,
    Nat.add_sub_cancel_left, hfull, htag, hid]

/-- What the loop body of `processFile` does at the offset `start`: it pushes a
Record exactly when the pattern matches somewhere in the window, and the Record is
that of the call expression matched at the least such window offset. -/
theorem matchOccurrence_eq_some (filepath content : Str) (start : Nat) (r : FunctionCall) :
    matchOccurrence filepath callPattern content start = some r ↔
      ∃ (a : Nat) (c : CallParts) (rest : Str), c.Matches ∧
        (candidateAt content start).drop a = c.text ++ rest ∧
        (∀ a2, a2 < a →
          matchItems callPattern ((candidateAt content start).drop a2) (0 + a2) = none) ∧
        r = c.record filepath := by
  rw [matchOccurrence_eq, Option.map_eq_some']
  unfold pcre2_match
  constructor
  · rintro ⟨ov, hov, rfl⟩
    obtain ⟨a, ov2, _, hm, rfl, hleast⟩ := (searchFrom_eq_some _ _ _ _).mp hov
    obtain ⟨c, rest, hc, hdrop, rfl⟩ := (matchItems_callPattern_iff _ _ _).mp hm
    exact ⟨a, c, rest, hc, hdrop, hleast, buildRecord_ovector filepath content start a c rest hdrop⟩
  · rintro ⟨a, c, rest, hc, hdrop, hleast, rfl⟩
    have hne : c.text ++ rest ≠ [] := by simp [CallParts.text, marker]
    have ha : a ≤ (candidateAt content start).length := by
      by_contra hge
      rw [List.drop_eq_nil_of_le (by omega)] at hdrop
      exact hne hdrop.symm
    refine ⟨(c.ovector (0 + a)).set 0 (0 + a), ?_,
      buildRecord_ovector filepath content start a c rest hdrop⟩
    exact (searchFrom_eq_some _ _ _ _).mpr
      ⟨a, c.ovector (0 + a), ha, (matchItems_callPattern_iff _ _ _).mpr ⟨c, rest, hc, hdrop, rfl⟩,
        rfl, hleast⟩

theorem matchOccurrence_eq_none (filepath content : Str) (start : Nat) :
    matchOccurrence filepath callPattern content start = none ↔
      ∀ a, a ≤ (candidateAt content start).length →
        matchItems callPattern ((candidateAt content start).drop a) (0 + a) = none := by
  rw [matchOccurrence_eq, Option.map_eq_none']
  unfold pcre2_match
  exact searchFrom_eq_none _ _ _

/-! ## No second match inside a call expression -/

theorem drop_head_mem (a t : Str) (n : Nat) (h : n < a.length) :
    ∃ x u, x ∈ a ∧ (a ++ t).drop n = x :: u := by
  refine ⟨a[n], a.drop (n + 1) ++ t, List.getElem_mem h, ?_⟩
  rw [List.drop_append_of_le_length (Nat.le_of_lt h), List.drop_eq_getElem_cons h,
    List.cons_append]

theorem CallParts.text_head (c : CallParts) (rest : Str) :
    ∃ u, c.text ++ rest = 'm' :: u :=
  ⟨_, by simp [CallParts.text, marker]; rfl⟩

theorem split_at_quote (x p y y2 : Str) (hx : ∀ c ∈ x, c ≠ '"') (hp : ∀ c ∈ p, c ≠ '"')
    (h : x ++ '"' :: y = p ++ '"' :: y2) : x = p ∧ y = y2 := by
  induction x generalizing p with
  | nil =>
    cases p with
    | nil =>
      simp only [List.nil_append, List.cons.injEq, true_and] at h
      exact ⟨rfl, h⟩
    | cons b p =>
      simp only [List.nil_append, List.cons_append, List.cons.injEq] at h
      exact absurd h.1.symm (hp b (List.mem_cons_self _ _))
  | cons a x ih =>
    cases p with
    | nil =>
      simp only [List.nil_append, List.cons_append, List.cons.injEq] at h
      exact absurd h.1 (hx a (List.mem_cons_self _ _))
    | cons b p =>
      simp only [List.cons_append, List.cons.injEq] at h
      obtain ⟨h1, h2⟩ := ih p (fun c hc => hx c (List.mem_cons_of_mem _ hc))
        (fun c hc => hp c (List.mem_cons_of_mem _ hc)) h.2
      exact ⟨by rw [h.1, h1], h2⟩

theorem isSpace_ne_quote (x : Char) (h : isSpace x = true) : x ≠ '"' :=
  isSpace_ne x '"' h (by decide)

theorem isAlpha_ne_quote (x : Char) (h : isAlpha x = true) : x ≠ '"' := by
  have := isAlpha_notQuote x h
  simpa [notQuote] using this

/-- A text without double quote that is followed by `")` is not the beginning of a
call expression: behind the first double quote the pattern wants `\s` or a letter. -/
theorem no_match_before_closing (x t rest : Str) (c : CallParts) (hc : c.Matches)
    (hx : ∀ y ∈ x, y ≠ '"') : x ++ '"' :: ')' :: t ≠ c.text ++ rest := by
  intro h
  obtain ⟨hw1, hw2, hne, ht, _, _, _, _, _⟩ := hc
  have htext : c.text ++ rest = (marker ++ c.w1 ++ ['(']) ++ '"' ::
      (c.w2 ++ (c.tag ++ (c.w3 ++ c.ident ++ '"' :: ')' :: (c.w4 ++ [';']) ++ rest))) := by
    simp [CallParts.text]
  rw [htext] at h
  have hp : ∀ y ∈ marker ++ c.w1 ++ ['('], y ≠ '"' := by
    intro y hy
    simp only [List.mem_append, List.mem_singleton] at hy
    rcases hy with (hy | hy) | hy
    · revert y; decide
    · exact isSpace_ne_quote y (hw1 y hy)
    · subst hy; decide
  obtain ⟨_, h2⟩ := split_at_quote _ _ _ _ hx hp h
  cases hw : c.w2 with
  | nil =>
    cases htag : c.tag with
    | nil => exact hne htag
    | cons y tg =>
      rw [hw, htag] at h2
      simp only [List.nil_append, List.cons_append, List.cons.injEq] at h2
      have := ht y (by rw [htag]; exact List.mem_cons_self _ _)
      rw [← h2.1] at this
      exact absurd this (by decide)
  | cons y w =>
    rw [hw] at h2
    simp only [List.cons_append, List.cons.injEq] at h2
    have := hw2 y (by rw [hw]; exact List.mem_cons_self _ _)
    rw [← h2.1] at this
    exact absurd this (by decide)

/-- No call expression begins strictly inside a call expression. -/
theorem no_match_inside (c c2 : CallParts) (hc : c.Matches) (hc2 : c2.Matches)
    (post rest : Str) (o : Nat) (h1 : 1 ≤ o) (h2 : o < c.text.length) :
    (c.text ++ post).drop o ≠ c2.text ++ rest := by
  intro h
  obtain ⟨u, hu⟩ := c2.text_head rest
  obtain ⟨hw1, hw2, hne, ht, hne3, hw3, hr, _, hw4⟩ := hc
  have hsplit : c.text ++ post = 'm' ::
      (("yFunction".toList ++ c.w1 ++ '(' :: '"' :: c.w2) ++
        ((c.tag ++ c.w3 ++ c.ident) ++ ('"' :: ')' :: (c.w4 ++ [';']) ++ post))) := by
    simp [CallParts.text, marker]
  have hlen := c.text_length
  obtain ⟨o1, rfl⟩ : ∃ o1, o = o1 + 1 := ⟨o - 1, by omega⟩
  rw [hsplit, List.drop_succ_cons] at h
  by_cases hA : o1 < ("yFunction".toList ++ c.w1 ++ '(' :: '"' :: c.w2).length
  · obtain ⟨x, v, hx, hd⟩ := drop_head_mem _
      ((c.tag ++ c.w3 ++ c.ident) ++ ('"' :: ')' :: (c.w4 ++ [';']) ++ post)) o1 hA
    rw [hd, hu, List.cons.injEq] at h
    have hxm : x = 'm' := h.1
    subst hxm
    simp only [List.mem_append, List.mem_cons] at hx
    rcases hx with (hx | hx) | hx | hx | hx
    · revert hx; decide
    · exact absurd (hw1 _ hx) (by decide)
    · exact absurd hx (by decide)
    · exact absurd hx (by decide)
    · exact absurd (hw2 _ hx) (by decide)
  · obtain ⟨o2, rfl⟩ : ∃ o2,
        o1 = ("yFunction".toList ++ c.w1 ++ '(' :: '"' :: c.w2).length + o2 :=
      ⟨o1 - ("yFunction".toList ++ c.w1 ++ '(' :: '"' :: c.w2).length, by omega⟩
    rw [List.drop_append] at h
    have hA1 : ("yFunction".toList ++ c.w1 ++ '(' :: '"' :: c.w2).length =
        9 + c.w1.length + 2 + c.w2.length := by simp; omega
    by_cases hB : o2 ≤ (c.tag ++ c.w3 ++ c.ident).length
    · rw [List.drop_append_of_le_length hB, List.append_assoc, List.cons_append,
        List.cons_append] at h
      refine no_match_before_closing _ _ rest c2 hc2 ?_ h
      intro y hy
      have hy2 : y ∈ c.tag ∨ y ∈ c.w3 ∨ y ∈ c.ident := by
        have := List.mem_of_mem_drop hy
        simpa [List.mem_append, or_assoc] using this
      rcases hy2 with hy3 | hy3 | hy3
      · exact isAlpha_ne_quote y (ht y hy3)
      · exact isSpace_ne_quote y (hw3 y hy3)
      · exact hr y hy3
    · obtain ⟨o3, rfl⟩ : ∃ o3, o2 = (c.tag ++ c.w3 ++ c.ident).length + o3 :=
        ⟨o2 - (c.tag ++ c.w3 ++ c.ident).length, by omega⟩
      rw [List.drop_append] at h
      have hB1 : (c.tag ++ c.w3 ++ c.ident).length =
          c.tag.length + c.w3.length + c.ident.length := by simp; omega
      have hA5 : ('"' :: ')' :: (c.w4 ++ [';'])).length = 2 + c.w4.length + 1 := by
        simp; omega
      obtain ⟨x, v, hx, hd⟩ := drop_head_mem ('"' :: ')' :: (c.w4 ++ [';'])) post o3
        (by omega)
      rw [hd, hu, List.cons.injEq] at h
      have hxm : x = 'm' := h.1
      subst hxm
      simp only [List.mem_append, List.mem_cons, List.mem_singleton] at hx
      rcases hx with hx | hx | hx | hx
      · exact absurd hx (by decide)
      · exact absurd hx (by decide)
      · exact absurd (hw4 _ hx) (by decide)
      · exact absurd hx (by decide)

/-- Two call expressions that begin the same text are the same text. -/
theorem CallParts.text_unique (c c2 : CallParts) (hc : c.Matches) (hc2 : c2.Matches)
    (post rest : Str) (h : c.text ++ post = c2.text ++ rest) : c.text = c2.text := by
  have h1 := (matchItems_callPattern_iff (c.text ++ post) 0 (c.ovector 0)).mpr
    ⟨c, post, hc, rfl, rfl⟩
  have h2 := (matchItems_callPattern_iff (c.text ++ post) 0 (c2.ovector 0)).mpr
    ⟨c2, rest, hc2, h, rfl⟩
  rw [h1, Option.some.injEq] at h2
  have hl1 := c.text_length
  have hl2 := c2.text_length
  simp only [CallParts.ovector, List.cons.injEq, and_true, true_and] at h2
  have hlen : c.text.length = c2.text.length := by omega
  have e1 : (c.text ++ post).take c.text.length = c.text := List.take_left _ _
  have e2 : (c2.text ++ rest).take c2.text.length = c2.text := List.take_left _ _
  rw [← e1, h, hlen, e2]

theorem CallParts.text_startsWith (c : CallParts) (rest : Str) :
    startsWith (c.text ++ rest) marker = true := by
  rw [startsWith_iff]
  exact ⟨c.w1 ++ '(' :: '"' ::
    (c.w2 ++ c.tag ++ c.w3 ++ c.ident ++ '"' :: ')' :: (c.w4 ++ [';'])) ++ rest,
    by simp [CallParts.text]⟩

/-- In a content whose marker occurrences all lie inside one call expression, a
window match can only begin where that call expression begins, and the whole call
expression then lies in the window. -/
theorem match_in_window (pre post : Str) (c : CallParts) (hc : c.Matches)
    (hocc : ∀ p ∈ occurrences (pre ++ (c.text ++ post)),
      pre.length ≤ p ∧ p + marker.length ≤ pre.length + c.text.length)
    (p a : Nat) (ov : List Nat)
    (hm : matchItems callPattern ((candidateAt (pre ++ (c.text ++ post)) p).drop a) (0 + a) =
      some ov) :
    p + a = pre.length ∧ a + c.text.length ≤ 100 := by
  obtain ⟨c2, rest2, hc2, hdrop, _⟩ := (matchItems_callPattern_iff _ _ _).mp hm
  have hne : c2.text ++ rest2 ≠ [] := by simp [CallParts.text, marker]
  have hwl := candidateAt_length (pre ++ (c.text ++ post)) p
  have ha : a < (candidateAt (pre ++ (c.text ++ post)) p).length := by
    by_contra hge
    rw [List.drop_eq_nil_of_le (by omega)] at hdrop
    exact hne hdrop.symm
  obtain ⟨t, ht⟩ := candidateAt_prefix (pre ++ (c.text ++ post)) p
  have hcontent : (pre ++ (c.text ++ post)).drop (p + a) = c2.text ++ (rest2 ++ t) := by
    rw [← List.drop_drop, ht, List.drop_append_of_le_length (by omega), hdrop,
      List.append_assoc]
  have hmem : p + a ∈ occurrences (pre ++ (c.text ++ post)) := by
    rw [mem_occurrences, hcontent]
    exact ⟨by omega, c2.text_startsWith _⟩
  obtain ⟨hge, hle⟩ := hocc _ hmem
  have hml : marker.length = 10 := rfl
  obtain ⟨o, ho⟩ : ∃ o, p + a = pre.length + o := ⟨p + a - pre.length, by omega⟩
  rw [ho, List.drop_append] at hcontent
  by_cases ho0 : o = 0
  · subst ho0
    have htext := c.text_unique c2 hc hc2 post (rest2 ++ t) hcontent
    have hl2 : c2.text.length ≤ ((candidateAt (pre ++ (c.text ++ post)) p).drop a).length := by
      rw [hdrop, List.length_append]; omega
    rw [List.length_drop, ← htext] at hl2
    constructor <;> omega
  · exact absurd hcontent
      (no_match_inside c c2 hc hc2 post (rest2 ++ t) o (by omega) (by omega))

theorem filterMap_eq_nil_of_none (f : Nat → Option FunctionCall) (l : List Nat)
    (h : ∀ p ∈ l, f p = none) : l.filterMap f = [] := by
  induction l with
  | nil => rfl
  | cons x l ih =>
    rw [List.filterMap_cons, h x (List.mem_cons_self _ _)]
    exact ih (fun p hp => h p (List.mem_cons_of_mem _ hp))

theorem filterMap_eq_singleton (f : Nat → Option FunctionCall) (l : List Nat) (p0 : Nat)
    (r : FunctionCall) (hp : l.Pairwise (· < ·)) (hmem : p0 ∈ l) (h0 : f p0 = some r)
    (h : ∀ p ∈ l, p ≠ p0 → f p = none) : l.filterMap f = [r] := by
  induction l with
  | nil => cases hmem
  | cons x l ih =>
    rw [List.pairwise_cons] at hp
    rw [List.filterMap_cons]
    by_cases hx : x = p0
    · subst hx
      rw [h0]
      dsimp only
      rw [filterMap_eq_nil_of_none f l]
      intro p hpl
      exact h p (List.mem_cons_of_mem _ hpl) (Nat.ne_of_gt (hp.1 p hpl))
    · rw [h x (List.mem_cons_self _ _) hx]
      dsimp only
      have hmem2 : p0 ∈ l := by
        rcases List.mem_cons.mp hmem with h1 | h1
        · exact absurd h1.symm hx
        · exact h1
      exact ih hp.2 hmem2 (fun p hpl hne => h p (List.mem_cons_of_mem _ hpl) hne)

/-- A call expression of at most 100 code units that holds every marker occurrence
of the content gives exactly its own Record. -/
theorem scanContent_single (filepath pre post : Str) (c : CallParts) (hc : c.Matches)
    (hlen : c.text.length ≤ 100)
    (hocc : ∀ p ∈ occurrences (pre ++ (c.text ++ post)),
      pre.length ≤ p ∧ p + marker.length ≤ pre.length + c.text.length) :
    scanContent filepath callPattern (pre ++ (c.text ++ post)) = [c.record filepath] := by
  rw [(scanContent_eq_scanSpec filepath callPattern _)]
  unfold scanSpec
  apply filterMap_eq_singleton _ _ pre.length _ (pairwise_occurrences _)
  · rw [mem_occurrences, List.drop_left]
    exact ⟨by simp, c.text_startsWith post⟩
  · rw [matchOccurrence_eq_some]
    have hw : candidateAt (pre ++ (c.text ++ post)) pre.length =
        c.text ++ post.take (min 100 ((pre ++ (c.text ++ post)).length - pre.length) -
          c.text.length) := by
      unfold candidateAt substr
      rw [List.drop_left, List.take_append_eq_append_take, List.take_of_length_le]
      simp only [List.length_append]
      omega
    refine ⟨0, c, post.take (min 100 ((pre ++ (c.text ++ post)).length - pre.length) -
      c.text.length), hc, ?_, fun a2 ha2 => absurd ha2 (Nat.not_lt_zero _), rfl⟩
    rw [List.drop_zero, hw]
  · intro p hp hne
    rw [matchOccurrence_eq_none]
    intro a _
    cases hm : matchItems callPattern
        ((candidateAt (pre ++ (c.text ++ post)) p).drop a) (0 + a) with
    | none => rfl
    | some ov =>
      exfalso
      have h1 := match_in_window pre post c hc hocc p a ov hm
      have h2 := hocc p hp
      omega

/-- A call expression of more than 100 code units that holds every marker
occurrence of the content gives no Record. -/
theorem scanContent_tooLong (filepath pre post : Str) (c : CallParts) (hc : c.Matches)
    (hlen : 100 < c.text.length)
    (hocc : ∀ p ∈ occurrences (pre ++ (c.text ++ post)),
      pre.length ≤ p ∧ p + marker.length ≤ pre.length + c.text.length) :
    scanContent filepath callPattern (pre ++ (c.text ++ post)) = [] := by
  rw [(scanContent_eq_scanSpec filepath callPattern _)]
  unfold scanSpec
  apply filterMap_eq_nil_of_none
  intro p _
  rw [matchOccurrence_eq_none]
  intro a _
  cases hm : matchItems callPattern
      ((candidateAt (pre ++ (c.text ++ post)) p).drop a) (0 + a) with
  | none => rfl
  | some ov =>
    exfalso
    have h1 := match_in_window pre post c hc hocc p a ov hm
    omega

/-! ## Field trimming -/

theorem inTrimSet_iff (c : Char) : inTrimSet c = true ↔ c ∈ trimSet := by
  simp [inTrimSet]

theorem firstNotOfAux_cons (c : Char) (s : Str) (i : Nat) :
    firstNotOfAux trimSet (c :: s) i =
      if inTrimSet c = true then firstNotOfAux trimSet s (i + 1) else some i := rfl

theorem lastNotOfAux_cons (c : Char) (s : Str) (i : Nat) :
    lastNotOfAux trimSet (c :: s) i =
      match lastNotOfAux trimSet s (i + 1) with
      | some j => some j
      | none => if inTrimSet c = true then none else some i := rfl

theorem firstNotOfAux_eq (s : Str) (i : Nat) :
    firstNotOfAux trimSet s i =
      if s.dropWhile inTrimSet = [] then none else some (i + (s.takeWhile inTrimSet).length) := by
  induction s generalizing i with
  | nil => simp [firstNotOfAux]
  | cons c t ih =>
    rw [firstNotOfAux_cons]
    by_cases hc : inTrimSet c = true
    · rw [if_pos hc, ih, List.dropWhile_cons_of_pos hc, List.takeWhile_cons_of_pos hc]
      split
      · rfl
      · simp only [List.length_cons]; congr 1; omega
    · rw [if_neg hc, List.dropWhile_cons_of_neg hc, List.takeWhile_cons_of_neg hc]
      simp

theorem lastNotOfAux_concat (s : Str) (c : Char) (i : Nat) :
    lastNotOfAux trimSet (s ++ [c]) i =
      if inTrimSet c = true then lastNotOfAux trimSet s i else some (i + s.length) := by
  induction s generalizing i with
  | nil =>
    rw [List.nil_append, lastNotOfAux_cons]
    by_cases hc : inTrimSet c = true
    · simp [lastNotOfAux, hc]
    · simp [lastNotOfAux, hc]
  | cons d t ih =>
    rw [List.cons_append, lastNotOfAux_cons, lastNotOfAux_cons, ih]
    by_cases hc : inTrimSet c = true
    · simp only [hc, if_true]
    · rw [if_neg hc, if_neg hc]
      simp only [List.length_cons]
      congr 1; omega

theorem lastNotOfAux_eq (s : Str) (i : Nat) :
    lastNotOfAux trimSet s i =
      if s.rdropWhile inTrimSet = [] then none
      else some (i + (s.rdropWhile inTrimSet).length - 1) := by
  induction s using List.reverseRecOn with
  | nil => simp [lastNotOfAux]
  | append_singleton t c ih =>
    rw [lastNotOfAux_concat]
    by_cases hc : inTrimSet c = true
    · rw [List.rdropWhile_concat_pos _ _ _ hc]; simp [hc, ih]
    · rw [List.rdropWhile_concat_neg _ _ _ hc]; simp [hc]

theorem rdropWhile_append_of_ne_nil (p : Char → Bool) (l r : Str)
    (h : r.rdropWhile p ≠ []) : (l ++ r).rdropWhile p = l ++ r.rdropWhile p := by
  induction r using List.reverseRecOn with
  | nil => simp at h
  | append_singleton t c ih =>
    rw [← List.append_assoc]
    by_cases hc : p c = true
    · rw [List.rdropWhile_concat_pos _ _ _ hc] at h
      rw [List.rdropWhile_concat_pos _ _ _ hc, List.rdropWhile_concat_pos _ _ _ hc, ih h]
    · rw [List.rdropWhile_concat_neg _ _ _ hc, List.rdropWhile_concat_neg _ _ _ hc,
        List.append_assoc]

theorem rdropWhile_left_trimmed (p : Char → Bool) (s : Str) (h : s.dropWhile p ≠ []) :
    s.rdropWhile p = s.takeWhile p ++ (s.dropWhile p).rdropWhile p := by
  have h2 : (s.dropWhile p).rdropWhile p ≠ [] := by
    intro h3
    rw [List.rdropWhile_eq_nil_iff] at h3
    have h4 := List.head_dropWhile_not p s h
    have h5 := h3 _ (List.head_mem h)
    simp [h5] at h4
  conv_lhs => rw [← List.takeWhile_append_dropWhile p s]
  exact rdropWhile_append_of_ne_nil p _ _ h2

theorem drop_length_takeWhile (p : Char → Bool) (s : Str) :
    s.drop (s.takeWhile p).length = s.dropWhile p := by
  have h := List.takeWhile_append_dropWhile p s
  have h2 : (s.takeWhile p ++ s.dropWhile p).drop (s.takeWhile p).length = s.dropWhile p :=
    List.drop_left _ _
  rw [h] at h2
  exact h2

/-- The trimming step computes the middle part left by dropping the trimmed
characters from both ends. -/
theorem trimField_eq (s : Str) :
    trimField s = (s.dropWhile inTrimSet).rdropWhile inTrimSet := by
  unfold trimField find_first_not_of find_last_not_of
  rw [firstNotOfAux_eq, lastNotOfAux_eq]
  by_cases h : s.dropWhile inTrimSet = []
  · simp only [h, if_true]
    simp
  · have h1 := rdropWhile_left_trimmed inTrimSet s h
    have h2 : s.rdropWhile inTrimSet ≠ [] := by
      intro h3
      rw [List.rdropWhile_eq_nil_iff] at h3
      exact h (List.dropWhile_eq_nil_iff.mpr h3)
    simp only [h, h2, if_false]
    unfold substr
    simp only [Nat.zero_add]
    rw [drop_length_takeWhile, h1, List.length_append]
    have h4 : (s.dropWhile inTrimSet).rdropWhile inTrimSet ≠ [] := by
      intro h5
      rw [List.rdropWhile_eq_nil_iff] at h5
      exact h (by
        have := List.dropWhile_idempotent (p := inTrimSet) (l := s)
        rw [← this]; exact List.dropWhile_eq_nil_iff.mpr h5)
    have h6 : 0 < ((s.dropWhile inTrimSet).rdropWhile inTrimSet).length :=
      List.length_pos.mpr h4
    have h7 : (s.takeWhile inTrimSet).length +
        ((s.dropWhile inTrimSet).rdropWhile inTrimSet).length - 1 -
        (s.takeWhile inTrimSet).length + 1 =
        ((s.dropWhile inTrimSet).rdropWhile inTrimSet).length := by omega
    rw [h7]
    exact (List.prefix_iff_eq_take.mp
      (List.rdropWhile_prefix inTrimSet (s.dropWhile inTrimSet))).symm

theorem rdropWhile_append_rtakeWhile (p : Char → Bool) (s : Str) :
    s.rdropWhile p ++ s.rtakeWhile p = s := by
  unfold List.rdropWhile List.rtakeWhile
  rw [← List.reverse_append, List.takeWhile_append_dropWhile, List.reverse_reverse]

theorem rdropWhile_append_all (p : Char → Bool) (m r : Str) (hr : ∀ c ∈ r, p c = true)
    (hm : m.rdropWhile p = m) : (m ++ r).rdropWhile p = m := by
  induction r using List.reverseRecOn with
  | nil => simpa using hm
  | append_singleton t c ih =>
    have hc : p c = true := hr c (by simp)
    rw [← List.append_assoc, List.rdropWhile_concat_pos _ _ _ hc]
    exact ih (fun d hd => hr d (by simp [hd]))

/-- Any way of cutting `s` into a trimmed run, a middle and a trimmed run gives as
middle the text computed by dropping trimmed characters at both ends. -/
theorem trimmedMiddle_eq (s m : Str) (h : TrimmedMiddle s m) :
    (s.dropWhile inTrimSet).rdropWhile inTrimSet = m := by
  obtain ⟨l, r, hs, hl, hr, hm⟩ := h
  have hl2 : ∀ c ∈ l, inTrimSet c = true := fun c hc => (inTrimSet_iff c).mpr (hl c hc)
  have hr2 : ∀ c ∈ r, inTrimSet c = true := fun c hc => (inTrimSet_iff c).mpr (hr c hc)
  rcases hm with hm | ⟨⟨a, ha, hna⟩, ⟨b, hb, hnb⟩⟩
  · subst hm
    have hall : ∀ c ∈ s, inTrimSet c = true := by
      intro c hc
      rw [hs] at hc
      simp only [List.append_nil, List.mem_append] at hc
      rcases hc with hc | hc
      · exact hl2 c hc
      · exact hr2 c hc
    rw [List.dropWhile_eq_nil_iff.mpr hall]
    rfl
  · cases m with
    | nil => simp at ha
    | cons x m2 =>
      simp only [List.head?_cons, Option.some.injEq] at ha
      subst ha
      have hx : ¬ (inTrimSet x = true) := fun h2 => hna ((inTrimSet_iff x).mp h2)
      rw [hs, List.append_assoc, List.dropWhile_append_of_pos hl2, List.cons_append,
        List.dropWhile_cons_of_neg hx, ← List.cons_append]
      apply rdropWhile_append_all _ _ _ hr2
      rw [List.rdropWhile_eq_self_iff]
      intro hne
      have : (x :: m2).getLast hne = b := by
        rw [List.getLast?_eq_getLast _ hne] at hb
        exact Option.some.inj hb
      rw [this]
      exact fun h2 => hnb ((inTrimSet_iff b).mp h2)

theorem trimmedMiddle_trimField (s : Str) : TrimmedMiddle s (trimField s) := by
  rw [trimField_eq]
  refine ⟨s.takeWhile inTrimSet, (s.dropWhile inTrimSet).rtakeWhile inTrimSet, ?_, ?_, ?_, ?_⟩
  · rw [List.append_assoc, rdropWhile_append_rtakeWhile, List.takeWhile_append_dropWhile]
  · exact fun c hc => (inTrimSet_iff c).mp (List.mem_takeWhile_imp hc)
  · exact fun c hc => (inTrimSet_iff c).mp (List.mem_rtakeWhile_imp hc)
  · by_cases hm : (s.dropWhile inTrimSet).rdropWhile inTrimSet = []
    · exact Or.inl hm
    · right
      have hd : s.dropWhile inTrimSet ≠ [] := by
        intro h0; rw [h0] at hm; exact hm rfl
      constructor
      · refine ⟨(s.dropWhile inTrimSet).head hd, ?_, ?_⟩
        · obtain ⟨t, ht⟩ := List.rdropWhile_prefix inTrimSet (s.dropWhile inTrimSet)
          cases hcase : (s.dropWhile inTrimSet).rdropWhile inTrimSet with
          | nil => exact absurd hcase hm
          | cons x m2 =>
            rw [hcase] at ht
            have : (s.dropWhile inTrimSet).head hd = x := by
              have h3 : (s.dropWhile inTrimSet).head? = some x := by rw [← ht]; rfl
              rw [List.head?_eq_head hd] at h3
              exact Option.some.inj h3
            rw [this]; rfl
        · intro hmem
          have := List.head_dropWhile_not inTrimSet s hd
          rw [(inTrimSet_iff _).mpr hmem] at this
          exact absurd this (by simp)
      · refine ⟨((s.dropWhile inTrimSet).rdropWhile inTrimSet).getLast hm,
          List.getLast?_eq_getLast _ hm, ?_⟩
        intro hmem
        exact List.rdropWhile_last_not inTrimSet _ hm ((inTrimSet_iff _).mpr hmem)

/-- C8. The trimming step of `processFile` returns the one text `m` with
`s = l ++ m ++ r` where `l` and `r` are made of space, tab, CR and LF only and `m`
is empty or begins and ends outside that set; a string made only of those
characters becomes empty. -/
theorem trimField_correct (s : Str) :
    TrimmedMiddle s (trimField s) ∧ (∀ m, TrimmedMiddle s m → m = trimField s) ∧
      ((∀ c ∈ s, c ∈ trimSet) → trimField s = []) := by
  refine ⟨trimmedMiddle_trimField s, ?_, ?_⟩
  · intro m hm
    rw [trimField_eq]
    exact (trimmedMiddle_eq s m hm).symm
  · intro h
    rw [trimField_eq, List.dropWhile_eq_nil_iff.mpr (fun c hc => (inTrimSet_iff c).mpr (h c hc))]
    rfl

/-- C9. Trimming a trimmed field changes nothing. -/
theorem trimField_idempotent (s : Str) : trimField (trimField s) = trimField s := by
  obtain ⟨l, r, _, _, _, hm⟩ := trimmedMiddle_trimField s
  have h : TrimmedMiddle (trimField s) (trimField s) :=
    ⟨[], [], by simp, by simp, by simp, hm⟩
  rw [trimField_eq (trimField s)]
  exact trimmedMiddle_eq _ _ h

theorem isSpace_of_mem_trimSet (x : Char) (h : x ∈ trimSet) : isSpace x = true := by
  have h2 : x = ' ' ∨ x = '\t' ∨ x = '\n' ∨ x = '\r' := by
    simpa [trimSet] using h
  rcases h2 with h2 | h2 | h2 | h2 <;> subst h2 <;> decide

theorem not_inTrimSet_of_not_space (x : Char) (h : isSpace x = false) :
    ¬ (inTrimSet x = true) := by
  intro h2
  rw [isSpace_of_mem_trimSet x ((inTrimSet_iff x).mp h2)] at h
  cases h

theorem trimField_of_ends (s : Str) (h1 : ∀ x, s.head? = some x → isSpace x = false)
    (h2 : ∀ x, s.getLast? = some x → isSpace x = false) : trimField s = s := by
  rw [trimField_eq]
  apply trimmedMiddle_eq
  refine ⟨[], [], by simp, by simp, by simp, ?_⟩
  cases hs : s with
  | nil => exact Or.inl rfl
  | cons a t =>
    right
    constructor
    · refine ⟨a, rfl, ?_⟩
      intro hmem
      have := h1 a (by rw [hs]; rfl)
      rw [isSpace_of_mem_trimSet a hmem] at this
      cases this
    · have hne : a :: t ≠ [] := by simp
      refine ⟨(a :: t).getLast hne, List.getLast?_eq_getLast _ hne, ?_⟩
      intro hmem
      have := h2 ((a :: t).getLast hne) (by rw [hs]; exact List.getLast?_eq_getLast _ hne)
      rw [isSpace_of_mem_trimSet _ hmem] at this
      cases this

/-- A text of letters is not changed by the trimming step. -/
theorem trimField_alpha (t : Str) (ht : ∀ x ∈ t, isAlpha x = true) : trimField t = t := by
  apply trimField_of_ends
  · intro x hx
    exact isAlpha_not_space x (ht x (List.mem_of_mem_head? hx))
  · intro x hx
    exact isAlpha_not_space x (ht x (List.mem_of_mem_getLast? hx))

theorem rdropWhile_append_rdropWhile (p : Char → Bool) (a r : Str) :
    (a ++ r.rdropWhile p).rdropWhile p = (a ++ r).rdropWhile p := by
  induction r using List.reverseRecOn with
  | nil => simp
  | append_singleton t c ih =>
    by_cases hc : p c = true
    · rw [List.rdropWhile_concat_pos _ _ _ hc, ← List.append_assoc,
        List.rdropWhile_concat_pos _ _ _ hc, ih]
    · rw [List.rdropWhile_concat_neg _ _ _ hc]

/-- Trimming the tag, a space and the raw second capture gives the same as trimming
the tag, a space and the trimmed second capture, because the raw second capture
does not begin with a trimmed character. -/
theorem trimField_argument (t r : Str) (hne : t ≠ []) (ht : ∀ x ∈ t, isAlpha x = true)
    (hr : ∀ x, r.head? = some x → isSpace x = false) :
    trimField (t ++ [' '] ++ r) = trimField (trimField t ++ [' '] ++ trimField r) := by
  rw [trimField_alpha t ht]
  have hhead : ∀ (u : Str) (x : Char), (t ++ [' '] ++ u).head? = some x →
      inTrimSet x = false := by
    intro u x hx
    cases t with
    | nil => exact absurd rfl hne
    | cons y t =>
      simp only [List.cons_append, List.head?_cons, Option.some.injEq] at hx
      have := not_inTrimSet_of_not_space y (isAlpha_not_space y (ht y (List.mem_cons_self _ _)))
      rw [← hx]
      simpa using this
  have hr2 : ∀ x, r.head? = some x → inTrimSet x = false := by
    intro x hx
    have := not_inTrimSet_of_not_space x (hr x hx)
    simpa using this
  rw [trimField_eq, trimField_eq, trimField_eq r,
    (takeWhile_of_head inTrimSet _ (hhead r)).2, (takeWhile_of_head inTrimSet r hr2).2,
    (takeWhile_of_head inTrimSet _ (hhead (r.rdropWhile inTrimSet))).2,
    rdropWhile_append_rdropWhile]

/-! ## Well-formed calls -/

theorem CallParts.WellFormed.matches (c : CallParts) (h : c.WellFormed) : c.Matches := by
  obtain ⟨h1, h2, h3, h4, h5, h6, h7, h8, h9⟩ := h
  exact ⟨fun x hx => isSpace_of_mem_trimSet x (h1 x hx),
    fun x hx => isSpace_of_mem_trimSet x (h2 x hx), h3, h4, h5,
    fun x hx => isSpace_of_mem_trimSet x (h6 x hx), h7, h8,
    fun x hx => isSpace_of_mem_trimSet x (h9 x hx)⟩

theorem occurrences_bound (content : Str) (p : Nat) (h : p ∈ occurrences content) :
    p + marker.length ≤ content.length := by
  rw [mem_occurrences, startsWith_iff] at h
  obtain ⟨hp, t, ht⟩ := h
  have := congrArg List.length ht
  rw [List.length_drop, List.length_append] at this
  omega

theorem record_eq (c : CallParts) (filepath : Str) (ht : ∀ x ∈ c.tag, isAlpha x = true) :
    c.record filepath =
      { filename := pathFilename filepath, fullCall := c.text,
        argument := trimField (c.tag ++ [' '] ++ c.ident), tag := c.tag,
        identifier := trimField c.ident } := by
  unfold CallParts.record
  rw [trimField_alpha c.tag ht]

/-- C1, as amended. A well-formed call of at most 100 code units that holds every
marker occurrence of the content gives exactly one Record: `fullCall` is the call,
`tag` the tag, `identifier` the trimmed rest, and `argument` the trimmed text of
tag, space and rest.  The whitespace runs are over space, tab, CR and LF; the rest
has no double quote and does not begin with a character of `\s`, that is, with
space, tab, LF, VT, FF or CR. -/
theorem wellFormed_call_one_record (filepath pre post : Str) (c : CallParts)
    (hc : c.WellFormed) (hlen : c.text.length ≤ 100)
    (hocc : ∀ p ∈ occurrences (pre ++ c.text ++ post),
      pre.length ≤ p ∧ p + marker.length ≤ pre.length + c.text.length) :
    scanContent filepath callPattern (pre ++ c.text ++ post) =
      [{ filename := pathFilename filepath, fullCall := c.text,
         argument := trimField (c.tag ++ [' '] ++ c.ident), tag := c.tag,
         identifier := trimField c.ident }] := by
  rw [List.append_assoc] at hocc ⊢
  rw [scanContent_single filepath pre post c hc.matches hlen hocc, record_eq c filepath hc.2.2.2.1]

theorem wellFormed_call_one_record_witness :
    wordCall.WellFormed ∧ wordCall.text.length ≤ 100 ∧
      (∀ p ∈ occurrences ([] ++ wordCall.text ++ []),
        ([] : Str).length ≤ p ∧ p + marker.length ≤ ([] : Str).length + wordCall.text.length) ∧
      wordCall.text = "myFunction(\"Word rest of text\");".toList ∧
      scanContent [] callPattern ([] ++ wordCall.text ++ []) =
        [{ filename := pathFilename [], fullCall := wordCall.text,
           argument := trimField (wordCall.tag ++ [' '] ++ wordCall.ident), tag := wordCall.tag,
           identifier := trimField wordCall.ident }] ∧
      trimField (wordCall.tag ++ [' '] ++ wordCall.ident) = "Word rest of text".toList ∧
      wordCall.tag = "Word".toList ∧ trimField wordCall.ident = "rest of text".toList := by
  have hwf : wordCall.WellFormed := by
    refine ⟨by decide, by decide, by decide, by decide, by decide, by decide, by decide, ?_,
      by decide⟩
    intro x hx
    have : x = 'r' := (Option.some.inj hx).symm
    subst this
    decide
  have hlen : wordCall.text.length ≤ 100 := by decide
  have hocc : ∀ p ∈ occurrences ([] ++ wordCall.text ++ []),
      ([] : Str).length ≤ p ∧ p + marker.length ≤ ([] : Str).length + wordCall.text.length := by
    decide
  exact ⟨hwf, hlen, hocc, by decide,
    wellFormed_call_one_record [] [] [] wordCall hwf hlen hocc, by decide, by decide, by decide⟩

/-- C1, as stated, fails.  The parts of `myFunction("Word <VT>id");` are as the
claim wants them: the rest `<VT>id` holds no double quote and does not begin with
space, tab, CR or LF, the call has at most 100 code units and holds the only marker
occurrence.  The scan gives one Record, but its identifier is `id`, not the trimmed
rest `<VT>id`, and its argument is `Word id`, not the trimmed `Word <VT>id`. -/
theorem wellFormed_call_counterexample :
    verticalTabCall.TrimSetShape ∧ verticalTabCall.text.length ≤ 100 ∧
      (∀ p ∈ occurrences ([] ++ verticalTabCall.text ++ []),
        ([] : Str).length ≤ p ∧
          p + marker.length ≤ ([] : Str).length + verticalTabCall.text.length) ∧
      scanContent [] callPattern ([] ++ verticalTabCall.text ++ []) ≠
        [{ filename := pathFilename [], fullCall := verticalTabCall.text,
           argument := trimField (verticalTabCall.tag ++ [' '] ++ verticalTabCall.ident),
           tag := verticalTabCall.tag, identifier := trimField verticalTabCall.ident }] ∧
      (scanContent [] callPattern ([] ++ verticalTabCall.text ++ [])).map (·.identifier) =
        ["id".toList] ∧
      trimField verticalTabCall.ident = "\x0bid".toList ∧
      (scanContent [] callPattern ([] ++ verticalTabCall.text ++ [])).map (·.argument) =
        ["Word id".toList] ∧
      trimField (verticalTabCall.tag ++ [' '] ++ verticalTabCall.ident) =
        "Word \x0bid".toList := by
  refine ⟨⟨by decide, by decide, by decide, by decide, by decide, by decide, by decide, ?_,
    by decide⟩, by decide, by decide, by decide, by decide, by decide, by decide, by decide⟩
  intro x hx
  have : x = '\x0b' := (Option.some.inj hx).symm
  subst this
  decide

/-- Vertical tab and form feed count as whitespace at the beginning of the rest:
`\s+` takes them, and the trimming step would not remove them.  For
`myFunction("Word <VT>id");` the identifier is `id`. -/
theorem verticalTab_before_rest :
    scanContent [] callPattern ([] ++ verticalTabCall.text ++ []) =
        [{ filename := [], fullCall := verticalTabCall.text, argument := "Word id".toList,
           tag := "Word".toList, identifier := "id".toList }] ∧
      verticalTabCall.ident = "\x0bid".toList ∧
      trimField verticalTabCall.ident = "\x0bid".toList := by
  refine ⟨by decide, by decide, by decide⟩

/-- C2, as stated, fails: at offset 0 of `myFunction x; myFunction("B c");` the
pattern does not match the window from its first code unit, and still the loop
body pushes a Record; the match that `pcre2_match` reports begins at window
offset 14. -/
theorem anchored_match_counterexample :
    0 ∈ occurrences strayMarkerContent ∧
      matchItems callPattern (candidateAt strayMarkerContent 0) 0 = none ∧
      pcre2_match callPattern (candidateAt strayMarkerContent 0) = some [14, 32, 26, 27, 28, 29] ∧
      matchOccurrence [] callPattern strayMarkerContent 0 =
        some { filename := [], fullCall := "myFunction(\"B c\");".toList,
               argument := "B c".toList, tag := "B".toList, identifier := "c".toList } := by
  refine ⟨by decide, by decide, by decide, by decide⟩

/-- C2, as amended. The match is searched in the window, from the marker
occurrence on: the loop body pushes a Record for the offset `start` exactly when
the pattern matches the window at some window offset; the match reported is the
one at the least such offset, which is entry 0 of the ovector; and a window in
which the pattern matches at no offset gives no Record. -/
theorem match_searched_in_window (filepath content : Str) (start : Nat) :
    ((matchOccurrence filepath callPattern content start).isSome = true ↔
        ∃ a, a ≤ (candidateAt content start).length ∧
          (matchItems callPattern ((candidateAt content start).drop a) a).isSome = true) ∧
      (∀ ov, pcre2_match callPattern (candidateAt content start) = some ov →
        ov.getD 0 0 ≤ (candidateAt content start).length ∧
        (matchItems callPattern ((candidateAt content start).drop (ov.getD 0 0))
          (ov.getD 0 0)).isSome = true ∧
        ∀ a, a < ov.getD 0 0 →
          matchItems callPattern ((candidateAt content start).drop a) a = none) ∧
      ((∀ a, a ≤ (candidateAt content start).length →
          matchItems callPattern ((candidateAt content start).drop a) a = none) →
        matchOccurrence filepath callPattern content start = none) := by
  refine ⟨?_, ?_, ?_⟩
  · constructor
    · intro h
      obtain ⟨r, hr⟩ := Option.isSome_iff_exists.mp h
      obtain ⟨a, c, rest, hc, hdrop, _, _⟩ := (matchOccurrence_eq_some _ _ _ _).mp hr
      have hne : c.text ++ rest ≠ [] := by simp [CallParts.text, marker]
      have ha : a ≤ (candidateAt content start).length := by
        by_contra hge
        rw [List.drop_eq_nil_of_le (by omega)] at hdrop
        exact hne hdrop.symm
      refine ⟨a, ha, ?_⟩
      rw [(matchItems_callPattern_iff _ _ _).mpr ⟨c, rest, hc, hdrop, rfl⟩]
      rfl
    · rintro ⟨a, ha, hm⟩
      cases hnone : matchOccurrence filepath callPattern content start with
      | some r => rfl
      | none =>
        have := (matchOccurrence_eq_none _ _ _).mp hnone a ha
        rw [Nat.zero_add] at this
        rw [this] at hm
        cases hm
  · intro ov hov
    unfold pcre2_match at hov
    obtain ⟨a, ov2, ha, hm, rfl, hleast⟩ := (searchFrom_eq_some _ _ _ _).mp hov
    obtain ⟨c, rest, _, _, rfl⟩ := (matchItems_callPattern_iff _ _ _).mp hm
    have e0 : ((c.ovector (0 + a)).set 0 (0 + a)).getD 0 0 = a := by
      simp [CallParts.ovector]
    rw [e0]
    rw [Nat.zero_add] at hm
    refine ⟨ha, by rw [hm]; rfl, ?_⟩
    intro a2 ha2
    have := hleast a2 ha2
    rwa [Nat.zero_add] at this
  · intro h
    rw [matchOccurrence_eq_none]
    intro a ha
    rw [Nat.zero_add]
    exact h a ha

/-- C3, as stated, fails.  Its own witness, with whitespace between `(` and the
opening quote and between the closing quote and `)`, gives no Record, on one line
and on two.  With empty runs at these two places, the quote-free rest `<VT>id`
gives the identifier `id`, not its trimmed text `<VT>id`; and the empty rest gives
the argument `Alpha`, without a space behind the tag. -/
theorem whitespace_positions_counterexample :
    ("myFunction(  \"Alpha   some value\"  ) ;".toList =
        "myFunction(".toList ++ "  ".toList ++ ['"'] ++ "Alpha".toList ++ "   ".toList ++
          "some value".toList ++ ['"'] ++ "  ".toList ++ [')'] ++ " ".toList ++ [';'] ∧
      scanContent "A.java".toList callPattern
        "myFunction(  \"Alpha   some value\"  ) ;".toList = [] ∧
      scanContent "A.java".toList callPattern
        "myFunction(\n  \"Alpha   some value\"  ) ;".toList = []) ∧
    ((scanContent "A.java".toList callPattern
        ("myFunction(".toList ++ [] ++ ['"'] ++ "Alpha".toList ++ " ".toList ++
          "\x0bid".toList ++ ['"'] ++ [] ++ [')'] ++ [] ++ [';'])).map (·.identifier) =
        ["id".toList] ∧
      trimField "\x0bid".toList = "\x0bid".toList) ∧
    ((scanContent "A.java".toList callPattern
        ("myFunction(".toList ++ [] ++ ['"'] ++ "Alpha".toList ++ " ".toList ++
          [] ++ ['"'] ++ [] ++ [')'] ++ [] ++ [';'])).map (·.argument) =
        ["Alpha".toList] ∧
      "Alpha".toList ++ [' '] ++ trimField [] ≠ "Alpha".toList) := by
  refine ⟨⟨by decide, by decide, by decide⟩, ⟨by decide, by decide⟩, ⟨by decide, by decide⟩⟩

/-- C3, as amended. Whitespace is accepted between the marker and `(`, between the
opening quote and the tag, between the tag and the rest, and between `)` and `;`:
scanning a file whose content is a well-formed call of at most 100 code units
gives the Record with the tag, the trimmed rest as identifier, and the trimmed
text of tag, space and rest as argument. -/
theorem whitespace_positions (filepath : Str) (c : CallParts) (hc : c.WellFormed)
    (hlen : c.text.length ≤ 100) :
    scanContent filepath callPattern c.text =
      [{ filename := pathFilename filepath, fullCall := c.text,
         argument := trimField (c.tag ++ [' '] ++ c.ident), tag := c.tag,
         identifier := trimField c.ident }] := by
  have hocc : ∀ p ∈ occurrences ([] ++ (c.text ++ [])),
      ([] : Str).length ≤ p ∧ p + marker.length ≤ ([] : Str).length + c.text.length := by
    intro p hp
    have := occurrences_bound _ p hp
    simp only [List.nil_append, List.append_nil, List.length_nil, Nat.zero_add] at this ⊢
    exact ⟨Nat.zero_le _, this⟩
  have h := scanContent_single filepath [] [] c hc.matches hlen hocc
  simp only [List.nil_append, List.append_nil] at h
  rw [h, record_eq c filepath hc.2.2.2.1]

theorem whitespace_positions_witness :
    alphaCall.WellFormed ∧ alphaCall.text.length ≤ 100 ∧
      alphaCall.text = "myFunction  (\"  Alpha   some value\")\n ;".toList ∧
      scanContent "A.java".toList callPattern alphaCall.text =
        [{ filename := pathFilename "A.java".toList, fullCall := alphaCall.text,
           argument := trimField (alphaCall.tag ++ [' '] ++ alphaCall.ident),
           tag := alphaCall.tag, identifier := trimField alphaCall.ident }] ∧
      pathFilename "A.java".toList = "A.java".toList ∧
      alphaCall.tag = "Alpha".toList ∧ trimField alphaCall.ident = "some value".toList ∧
      trimField (alphaCall.tag ++ [' '] ++ alphaCall.ident) = "Alpha some value".toList := by
  have hwf : alphaCall.WellFormed := by
    refine ⟨by decide, by decide, by decide, by decide, by decide, by decide, by decide, ?_,
      by decide⟩
    intro x hx
    have : x = 's' := (Option.some.inj hx).symm
    subst this
    decide
  have hlen : alphaCall.text.length ≤ 100 := by decide
  exact ⟨hwf, hlen, by decide, whitespace_positions "A.java".toList alphaCall hwf hlen,
    by decide, by decide, by decide, by decide⟩

/-- A text that matches the pattern in its entirety is the text of a call
expression whose parts are as the pattern takes them. -/
theorem matchesEntirely_iff (call : Str) :
    MatchesEntirely call ↔ ∃ c : CallParts, c.Matches ∧ call = c.text := by
  constructor
  · rintro ⟨ov, hm, hend⟩
    obtain ⟨c, rest, hc, rfl, rfl⟩ := (matchItems_callPattern_iff _ _ _).mp hm
    refine ⟨c, hc, ?_⟩
    have hl := c.text_length
    have e1 : (c.ovector 0).getD 1 0 = c.text.length := by
      simp [CallParts.ovector]; omega
    rw [e1, List.length_append] at hend
    have : rest = [] := List.length_eq_zero.mp (by omega)
    rw [this, List.append_nil]
  · rintro ⟨c, hc, rfl⟩
    refine ⟨c.ovector 0, (matchItems_callPattern_iff _ _ _).mpr ⟨c, [], hc, by simp, rfl⟩, ?_⟩
    have hl := c.text_length
    simp [CallParts.ovector]; omega

/-- C4. Let a call expression that matches the pattern in its entirety hold every
marker occurrence of a content.  When the call is longer than 100 code units the
scan returns no Record, and when it is at most 100 code units long the scan
returns one. -/
theorem bounded_window (filepath pre call post : Str) (hwf : MatchesEntirely call)
    (hocc : ∀ p ∈ occurrences (pre ++ call ++ post),
      pre.length ≤ p ∧ p + marker.length ≤ pre.length + call.length) :
    (100 < call.length → scanContent filepath callPattern (pre ++ call ++ post) = []) ∧
      (call.length ≤ 100 →
        (scanContent filepath callPattern (pre ++ call ++ post)).length = 1) := by
  obtain ⟨c, hc, rfl⟩ := (matchesEntirely_iff call).mp hwf
  rw [List.append_assoc] at hocc ⊢
  constructor
  · intro hlen
    exact scanContent_tooLong filepath pre post c hc hlen hocc
  · intro hlen
    rw [scanContent_single filepath pre post c hc hlen hocc]
    rfl

theorem paddedCall_matches (n : Nat) : (paddedCall n).Matches := by
  have htag : ∀ x ∈ "Word".toList, isAlpha x = true := by decide
  have hw3 : ∀ x ∈ [' '], isSpace x = true := by decide
  refine ⟨by simp [paddedCall], by simp [paddedCall], by simp [paddedCall], htag,
    by simp [paddedCall], hw3, ?_, ?_, by simp [paddedCall]⟩
  · intro x hx
    have : x = 'x' := List.eq_of_mem_replicate hx
    subst this
    decide
  · intro x hx
    have hmem : x ∈ List.replicate n 'x' := List.mem_of_mem_head? hx
    have : x = 'x' := List.eq_of_mem_replicate hmem
    subst this
    decide

theorem paddedCall_occurrences (n : Nat) :
    ∀ p ∈ occurrences ([] ++ (paddedCall n).text ++ []),
      ([] : Str).length ≤ p ∧ p + marker.length ≤ ([] : Str).length + (paddedCall n).text.length := by
  intro p hp
  have := occurrences_bound _ p hp
  simp only [List.nil_append, List.append_nil, List.length_nil, Nat.zero_add] at this ⊢
  exact ⟨Nat.zero_le _, this⟩

theorem bounded_window_witness :
    (MatchesEntirely (paddedCall 81).text ∧
      (∀ p ∈ occurrences ([] ++ (paddedCall 81).text ++ []),
        ([] : Str).length ≤ p ∧
          p + marker.length ≤ ([] : Str).length + (paddedCall 81).text.length) ∧
      (paddedCall 81).text.length = 101 ∧
      scanContent [] callPattern ([] ++ (paddedCall 81).text ++ []) = []) ∧
    (MatchesEntirely (paddedCall 80).text ∧
      (∀ p ∈ occurrences ([] ++ (paddedCall 80).text ++ []),
        ([] : Str).length ≤ p ∧
          p + marker.length ≤ ([] : Str).length + (paddedCall 80).text.length) ∧
      (paddedCall 80).text.length = 100 ∧
      (scanContent [] callPattern ([] ++ (paddedCall 80).text ++ [])).length = 1) := by
  have h81 : MatchesEntirely (paddedCall 81).text :=
    (matchesEntirely_iff _).mpr ⟨paddedCall 81, paddedCall_matches 81, rfl⟩
  have h80 : MatchesEntirely (paddedCall 80).text :=
    (matchesEntirely_iff _).mpr ⟨paddedCall 80, paddedCall_matches 80, rfl⟩
  have l81 : (paddedCall 81).text.length = 101 := by
    rw [CallParts.text_length]; simp [paddedCall]
  have l80 : (paddedCall 80).text.length = 100 := by
    rw [CallParts.text_length]; simp [paddedCall]
  exact ⟨⟨h81, paddedCall_occurrences 81, l81,
      (bounded_window [] [] (paddedCall 81).text [] h81 (paddedCall_occurrences 81)).1
        (by rw [l81]; decide)⟩,
    ⟨h80, paddedCall_occurrences 80, l80,
      (bounded_window [] [] (paddedCall 80).text [] h80 (paddedCall_occurrences 80)).2
        (by rw [l80])⟩⟩

theorem mem_scanContent (filepath content : Str) (r : FunctionCall)
    (h : r ∈ scanContent filepath callPattern content) :
    ∃ start, start ∈ occurrences content ∧
      matchOccurrence filepath callPattern content start = some r := by
  rw [scanContent_eq_scanSpec] at h
  unfold scanSpec at h
  rw [List.mem_filterMap] at h
  exact h

/-- C7. In every Record of `processFile` the argument is the trimmed text of the
Record's own tag, a single space and the Record's own identifier. -/
theorem argument_of_fields (readFile : Str → Option Str) (filepath : Str) (r : FunctionCall)
    (h : r ∈ processFile readFile filepath callPattern) :
    r.argument = trimField (r.tag ++ [' '] ++ r.identifier) := by
  unfold processFile at h
  cases hread : readFile filepath with
  | none => rw [hread] at h; cases h
  | some content =>
    rw [hread] at h
    obtain ⟨start, _, hm⟩ := mem_scanContent filepath content r h
    obtain ⟨a, c, rest, hc, _, _, rfl⟩ := (matchOccurrence_eq_some _ _ _ _).mp hm
    obtain ⟨_, _, hne, ht, _, _, _, hhead, _⟩ := hc
    exact trimField_argument c.tag c.ident hne ht hhead

theorem argument_of_fields_witness :
    ({ filename := "A.java".toList, fullCall := "myFunction(\"Tag  some id \t\");".toList,
       argument := "Tag some id".toList, tag := "Tag".toList,
       identifier := "some id".toList } : FunctionCall) ∈
        processFile (fun _ => some "x = myFunction(\"Tag  some id \t\"); y".toList)
          "src/A.java".toList callPattern ∧
      "Tag some id".toList = trimField ("Tag".toList ++ [' '] ++ "some id".toList) :=
  ⟨by decide,
    argument_of_fields (fun _ => some "x = myFunction(\"Tag  some id \t\"); y".toList)
      "src/A.java".toList
      { filename := "A.java".toList, fullCall := "myFunction(\"Tag  some id \t\");".toList,
        argument := "Tag some id".toList, tag := "Tag".toList,
        identifier := "some id".toList } (by decide)⟩


/-! ## Records -/

theorem mem_processFile (readFile : Str → Option Str) (filepath : Str) (r : FunctionCall)
    (h : r ∈ processFile readFile filepath callPattern) :
    ∃ (content : Str) (start a : Nat) (c : CallParts) (rest : Str),
      readFile filepath = some content ∧ start ∈ occurrences content ∧ c.Matches ∧
      (candidateAt content start).drop a = c.text ++ rest ∧ r = c.record filepath := by
  unfold processFile at h
  cases hread : readFile filepath with
  | none => rw [hread] at h; cases h
  | some content =>
    rw [hread] at h
    obtain ⟨start, hocc, hm⟩ := mem_scanContent filepath content r h
    obtain ⟨a, c, rest, hc, hdrop, _, hr⟩ := (matchOccurrence_eq_some _ _ _ _).mp hm
    exact ⟨content, start, a, c, rest, rfl, hocc, hc, hdrop, hr⟩

theorem CallParts.text_getLast? (c : CallParts) : c.text.getLast? = some ';' := by
  have h : c.text = (marker ++ c.w1 ++ '(' :: '"' ::
      (c.w2 ++ c.tag ++ c.w3 ++ c.ident ++ '"' :: ')' :: c.w4)) ++ [';'] := by
    simp [CallParts.text]
  rw [h, List.getLast?_append]
  rfl

/-- C12. The `fullCall` of a Record built at the offset `start` from the full-match
range `[a, b)` of the window is the slice `[start + a, start + b)` of the content;
it is the slice `[a, b)` of the window as well, begins with the marker, ends with
`;` and has at most 100 code units. -/
theorem fullCall_slice (filepath content : Str) (start : Nat) (ov : List Nat)
    (r : FunctionCall)
    (hov : pcre2_match callPattern (candidateAt content start) = some ov)
    (hr : matchOccurrence filepath callPattern content start = some r) :
    r.fullCall = substr content (start + ov.getD 0 0) (ov.getD 1 0 - ov.getD 0 0) ∧
      r.fullCall =
        substr (candidateAt content start) (ov.getD 0 0) (ov.getD 1 0 - ov.getD 0 0) ∧
      startsWith r.fullCall marker = true ∧ r.fullCall.getLast? = some ';' ∧
      r.fullCall.length ≤ 100 ∧
      ov.getD 0 0 ≤ ov.getD 1 0 ∧ ov.getD 1 0 ≤ (candidateAt content start).length := by
  rw [matchOccurrence_eq, hov] at hr
  have hr2 : buildRecord filepath content start ov = r := Option.some.inj hr
  unfold pcre2_match at hov
  obtain ⟨a, ov2, ha, hm, rfl, _⟩ := (searchFrom_eq_some _ _ _ _).mp hov
  obtain ⟨c, rest, hc, hdrop, rfl⟩ := (matchItems_callPattern_iff _ _ _).mp hm
  have hrec := buildRecord_ovector filepath content start a c rest hdrop
  rw [hr2] at hrec
  have hfull : r.fullCall = c.text := by rw [hrec]; rfl
  have htl := c.text_length
  have e0 : ((c.ovector (0 + a)).set 0 (0 + a)).getD 0 0 = a := by
    simp [CallParts.ovector]
  have e1 : ((c.ovector (0 + a)).set 0 (0 + a)).getD 1 0 = a + c.text.length := by
    simp [CallParts.ovector]; omega
  have hwin : candidateAt content start =
      (candidateAt content start).take a ++ (c.text ++ rest) := by
    rw [← hdrop, List.take_append_drop]
  have hlen : ((candidateAt content start).take a).length = a := by
    rw [List.length_take]; omega
  have hdl : c.text.length + rest.length = (candidateAt content start).length - a := by
    have := congrArg List.length hdrop
    rw [List.length_drop, List.length_append] at this
    omega
  have hwl := candidateAt_length content start
  have htpos : 0 < c.text.length := by omega
  rw [e0, e1, Nat.add_sub_cancel_left]
  refine ⟨?_, ?_, ?_, ?_, ?_, ?_, ?_⟩
  · rw [← hr2]
    unfold buildRecord
    simp only [e0, e1, Nat.add_sub_cancel_left]
  · rw [hfull]
    exact (substr_middle_of_eq _ _ c.text rest a c.text.length hwin hlen.symm rfl).symm
  · rw [hfull]
    have := c.text_startsWith []
    rwa [List.append_nil] at this
  · rw [hfull]; exact c.text_getLast?
  · rw [hfull]; omega
  · omega
  · omega

theorem fullCall_slice_witness :
    pcre2_match callPattern (candidateAt strayMarkerContent 0) = some [14, 32, 26, 27, 28, 29] ∧
      matchOccurrence [] callPattern strayMarkerContent 0 =
        some { filename := [], fullCall := "myFunction(\"B c\");".toList,
               argument := "B c".toList, tag := "B".toList, identifier := "c".toList } ∧
      "myFunction(\"B c\");".toList = substr strayMarkerContent (0 + 14) (32 - 14) :=
  ⟨by decide, by decide,
    (fullCall_slice [] strayMarkerContent 0 [14, 32, 26, 27, 28, 29]
      { filename := [], fullCall := "myFunction(\"B c\");".toList,
        argument := "B c".toList, tag := "B".toList, identifier := "c".toList }
      (by decide) (by decide)).1⟩

theorem mem_trimField (s : Str) (x : Char) (h : x ∈ trimField s) : x ∈ s := by
  rw [trimField_eq] at h
  exact (List.dropWhile_suffix inTrimSet).subset
    ((List.rdropWhile_prefix inTrimSet _).subset h)

theorem trimField_ends (s : Str) :
    (∀ x, (trimField s).head? = some x → x ∉ trimSet) ∧
      (∀ x, (trimField s).getLast? = some x → x ∉ trimSet) := by
  obtain ⟨_, _, _, _, _, hm⟩ := trimmedMiddle_trimField s
  rcases hm with hm | ⟨⟨a, ha, hna⟩, ⟨b, hb, hnb⟩⟩
  · rw [hm]
    exact ⟨fun x hx => Option.noConfusion hx, fun x hx => Option.noConfusion hx⟩
  · constructor
    · intro x hx
      rw [ha] at hx
      rw [← Option.some.inj hx]; exact hna
    · intro x hx
      rw [hb] at hx
      rw [← Option.some.inj hx]; exact hnb

/-- C13. In every Record of `processFile` the tag is non-empty and made of ASCII
letters only, the identifier holds no double quote, and neither tag, identifier
nor argument begins or ends with space, tab, CR or LF. -/
theorem record_fields (readFile : Str → Option Str) (filepath : Str) (r : FunctionCall)
    (h : r ∈ processFile readFile filepath callPattern) :
    r.tag ≠ [] ∧ (∀ x ∈ r.tag, isAlpha x = true) ∧ (∀ x ∈ r.identifier, x ≠ '"') ∧
      (∀ f ∈ [r.tag, r.identifier, r.argument],
        (∀ x, f.head? = some x → x ∉ trimSet) ∧ (∀ x, f.getLast? = some x → x ∉ trimSet)) := by
  obtain ⟨content, start, a, c, rest, _, _, hc, _, rfl⟩ := mem_processFile readFile filepath r h
  obtain ⟨_, _, hne, ht, _, _, hid, _, _⟩ := hc
  have htag : (c.record filepath).tag = c.tag := trimField_alpha c.tag ht
  refine ⟨by rw [htag]; exact hne, by rw [htag]; exact ht, ?_, ?_⟩
  · intro x hx
    exact hid x (mem_trimField c.ident x hx)
  · intro f hf
    simp only [List.mem_cons, List.mem_singleton, List.not_mem_nil, or_false] at hf
    rcases hf with rfl | rfl | rfl
    · exact trimField_ends c.tag
    · exact trimField_ends c.ident
    · exact trimField_ends (c.tag ++ [' '] ++ c.ident)

theorem record_fields_witness :
    ({ filename := "A.java".toList, fullCall := "myFunction(\"Tag  some id \t\");".toList,
       argument := "Tag some id".toList, tag := "Tag".toList,
       identifier := "some id".toList } : FunctionCall) ∈
        processFile (fun _ => some "x = myFunction(\"Tag  some id \t\"); y".toList)
          "src/A.java".toList callPattern ∧
      "Tag".toList ≠ [] ∧ (∀ x ∈ "Tag".toList, isAlpha x = true) ∧
      (∀ x ∈ "some id".toList, x ≠ '"') :=
  ⟨by decide,
    (record_fields (fun _ => some "x = myFunction(\"Tag  some id \t\"); y".toList)
      "src/A.java".toList
      { filename := "A.java".toList, fullCall := "myFunction(\"Tag  some id \t\");".toList,
        argument := "Tag some id".toList, tag := "Tag".toList,
        identifier := "some id".toList } (by decide)).1,
    (record_fields (fun _ => some "x = myFunction(\"Tag  some id \t\"); y".toList)
      "src/A.java".toList
      { filename := "A.java".toList, fullCall := "myFunction(\"Tag  some id \t\");".toList,
        argument := "Tag some id".toList, tag := "Tag".toList,
        identifier := "some id".toList } (by decide)).2.1,
    (record_fields (fun _ => some "x = myFunction(\"Tag  some id \t\"); y".toList)
      "src/A.java".toList
      { filename := "A.java".toList, fullCall := "myFunction(\"Tag  some id \t\");".toList,
        argument := "Tag some id".toList, tag := "Tag".toList,
        identifier := "some id".toList } (by decide)).2.2.1⟩

/-- C14. The scan of `processFile` returns at most as many Records as there are
marker occurrences in the content, and none for a content without the marker. -/
theorem records_le_occurrences (filepath : Str) (re : List Item) (content : Str) :
    (scanContent filepath re content).length ≤ (occurrences content).length ∧
      ((∀ p, startsWith (content.drop p) marker = false) →
        scanContent filepath re content = []) := by
  rw [scanContent_eq_scanSpec]
  unfold scanSpec
  refine ⟨List.length_filterMap_le _ _, ?_⟩
  intro h
  have hnil : occurrences content = [] := by
    unfold occurrences
    rw [List.filter_eq_nil_iff]
    intro p _
    rw [h p]
    simp
  rw [hnil]
  rfl

/-- C17. Duplicates exist and stay: in `myFunction("A myFunction"); myFunction("B c");`
the marker occurs at the offsets 0, 14 and 28, the occurrence at 14 lies in the text
captured by the first call, and the scan returns three Records, the last two of
them equal and both from the one call `myFunction("B c");`. -/
theorem duplicates_preserved :
    occurrences nestedMarkerContent = [0, 14, 28] ∧
      scanContent [] callPattern nestedMarkerContent =
        [{ filename := [], fullCall := "myFunction(\"A myFunction\");".toList,
           argument := "A myFunction".toList, tag := "A".toList,
           identifier := "myFunction".toList },
         { filename := [], fullCall := "myFunction(\"B c\");".toList,
           argument := "B c".toList, tag := "B".toList, identifier := "c".toList },
         { filename := [], fullCall := "myFunction(\"B c\");".toList,
           argument := "B c".toList, tag := "B".toList, identifier := "c".toList }] ∧
      matchOccurrence [] callPattern nestedMarkerContent 14 =
        matchOccurrence [] callPattern nestedMarkerContent 28 := by
  refine ⟨by decide, by decide, by decide⟩

/-! ## escapeCSV -/

theorem findAux_char_not_mem (c : Char) (s : Str) (i : Nat) (h : c ∉ s) :
    findAux [c] s i = none := by
  induction s generalizing i with
  | nil => simp [findAux, startsWith]
  | cons x s ih =>
    have hx : ¬ x = c := fun e => h (by simp [e])
    have hs : c ∉ s := fun e => h (by simp [e])
    simp [findAux, startsWith, hx, ih _ hs]

theorem findAux_char_split (c : Char) (a b : Str) (i : Nat) (h : c ∉ a) :
    findAux [c] (a ++ c :: b) i = some (i + a.length) := by
  induction a generalizing i with
  | nil => simp [findAux, startsWith]
  | cons x a ih =>
    have hx : ¬ x = c := fun e => h (by simp [e])
    have hs : c ∉ a := fun e => h (by simp [e])
    have hsw : startsWith (x :: (a ++ c :: b)) [c] = false := by simp [startsWith, hx]
    rw [List.cons_append, findAux, hsw, if_neg (by simp), ih _ hs, List.length_cons]
    congr 1; omega

theorem findChar_eq_none (c : Char) (s : Str) (h : c ∉ s) : findChar s c 0 = none := by
  unfold findChar find
  simp [findAux_char_not_mem c s 0 h]

theorem findChar_isSome (c : Char) (s : Str) (h : c ∈ s) : (findChar s c 0).isSome = true := by
  obtain ⟨a, b, rfl, ha⟩ := List.eq_append_cons_of_mem h
  unfold findChar find
  simp [findAux_char_split c a b 0 ha]

theorem doubleQuotes_of_not_mem (s : Str) (h : '"' ∉ s) : doubleQuotes s = s := by
  induction s with
  | nil => rfl
  | cons x s ih =>
    have hx : ¬ x = '"' := fun e => h (by simp [e])
    have hs : '"' ∉ s := fun e => h (by simp [e])
    simp [doubleQuotes, hx, ih hs]

theorem doubleQuotes_append (a t : Str) (h : '"' ∉ a) :
    doubleQuotes (a ++ t) = a ++ doubleQuotes t := by
  induction a with
  | nil => rfl
  | cons x a ih =>
    have hx : ¬ x = '"' := fun e => h (by simp [e])
    have hs : '"' ∉ a := fun e => h (by simp [e])
    simp [doubleQuotes, hx, ih hs]

/-- The loop of `escapeCSV`, started behind a part `done` that it has passed,
doubles every quote of the rest, whenever the bound exceeds the length of the rest. -/
theorem escapeLoop_eq (fuel : Nat) (done todo : Str) (h : todo.length < fuel) :
    escapeLoop fuel (done ++ todo) done.length = some (done ++ doubleQuotes todo) := by
  induction fuel generalizing done todo with
  | zero => omega
  | succ fuel ih =>
    unfold escapeLoop
    have hfind : findChar (done ++ todo) '"' done.length = findAux ['"'] todo done.length := by
      unfold findChar find
      rw [if_pos (by simp), List.drop_left]
    rw [hfind]
    by_cases hq : '"' ∈ todo
    · obtain ⟨a, b, rfl, ha⟩ := List.eq_append_cons_of_mem hq
      rw [findAux_char_split _ a b _ ha]
      dsimp only
      have hrep : replace (done ++ (a ++ '"' :: b)) (done.length + a.length) 1 ['"', '"'] =
          (done ++ a ++ ['"', '"']) ++ b := by
        unfold replace
        rw [← List.append_assoc, ← List.length_append, List.take_left,
          show (done ++ a).length + 1 = (done ++ a ++ ['"']).length by simp; omega,
          show done ++ a ++ '"' :: b = (done ++ a ++ ['"']) ++ b by simp, List.drop_left]
      have hlen : done.length + a.length + 2 = (done ++ a ++ ['"', '"']).length := by
        simp; omega
      rw [hrep, hlen, ih _ b (by simp at h; omega), doubleQuotes_append a _ ha]
      simp [doubleQuotes]
    · rw [findAux_char_not_mem _ _ _ hq, doubleQuotes_of_not_mem _ hq]

/-- C10. A field without comma and double quote is written as it is (line breaks
included); any other field is written between two double quotes with each of its
double quotes doubled and every other character unchanged.  The loop of
`escapeCSV` ends within `s.length + 1` evaluations of its condition. -/
theorem escapeCSV_rule (s : Str) :
    ((',' ∉ s ∧ '"' ∉ s) → escapeCSV s = s) ∧
      ((',' ∈ s ∨ '"' ∈ s) → escapeCSV s = ['"'] ++ doubleQuotes s ++ ['"']) ∧
      (∀ extra, escapeLoop (s.length + 1 + extra) s 0 = some (doubleQuotes s)) := by
  refine ⟨?_, ?_, ?_⟩
  · rintro ⟨h1, h2⟩
    unfold escapeCSV
    simp [findChar_eq_none _ _ h1, findChar_eq_none _ _ h2]
  · intro h
    have hcond : ((findChar s ',' 0).isSome || (findChar s '"' 0).isSome) = true := by
      rcases h with h | h
      · simp [findChar_isSome _ _ h]
      · simp [findChar_isSome _ _ h]
    unfold escapeCSV
    have hloop := escapeLoop_eq (s.length + 1) [] s (Nat.lt_succ_self _)
    simp only [List.nil_append, List.length_nil] at hloop
    simp only [hcond, if_true, hloop, Option.getD_some]
  · intro extra
    have hloop := escapeLoop_eq (s.length + 1 + extra) [] s (by omega)
    simpa using hloop


theorem undoubleQuotes_cons_ne (c : Char) (rest : Str) (hc : c ≠ '"') :
    undoubleQuotes (c :: rest) = c :: undoubleQuotes rest := by
  cases rest <;> simp [undoubleQuotes, hc]

theorem undoubleQuotes_doubleQuotes (s : Str) : undoubleQuotes (doubleQuotes s) = s := by
  induction s with
  | nil => rfl
  | cons c s ih =>
    by_cases hc : c = '"'
    · subst hc
      simp [doubleQuotes, undoubleQuotes, ih]
    · have hd : doubleQuotes (c :: s) = c :: doubleQuotes s := by simp [doubleQuotes, hc]
      rw [hd, undoubleQuotes_cons_ne c _ hc, ih]

theorem escapeCSV_plain (s : Str) (h1 : ',' ∉ s) (h2 : '"' ∉ s) : escapeCSV s = s := by
  unfold escapeCSV
  simp [findChar_eq_none _ _ h1, findChar_eq_none _ _ h2]

theorem escapeCSV_quoted (s : Str) (h : ',' ∈ s ∨ '"' ∈ s) :
    escapeCSV s = '"' :: (doubleQuotes s ++ ['"']) := by
  have hcond : ((findChar s ',' 0).isSome || (findChar s '"' 0).isSome) = true := by
    rcases h with h | h
    · simp [findChar_isSome _ _ h]
    · simp [findChar_isSome _ _ h]
  unfold escapeCSV
  have hloop := escapeLoop_eq (s.length + 1) [] s (Nat.lt_succ_self _)
  simp only [List.nil_append, List.length_nil] at hloop
  simp only [hcond, if_true, hloop, Option.getD_some]
  rfl

theorem decodeQuotedField_escapeCSV (s : Str) (h : ',' ∈ s ∨ '"' ∈ s) :
    decodeQuotedField (escapeCSV s) = some s := by
  rw [escapeCSV_quoted s h]
  unfold decodeQuotedField
  simp [undoubleQuotes_doubleQuotes]

theorem escapeCSV_injective : Function.Injective escapeCSV := by
  intro s t hst
  by_cases hs : ',' ∈ s ∨ '"' ∈ s
  · by_cases ht : ',' ∈ t ∨ '"' ∈ t
    · have h1 := decodeQuotedField_escapeCSV s hs
      rw [hst, decodeQuotedField_escapeCSV t ht] at h1
      exact (Option.some.inj h1).symm
    · rw [not_or] at ht
      rw [escapeCSV_quoted s hs, escapeCSV_plain t ht.1 ht.2] at hst
      exact absurd (by rw [← hst]; exact List.mem_cons_self _ _) ht.2
  · rw [not_or] at hs
    by_cases ht : ',' ∈ t ∨ '"' ∈ t
    · rw [escapeCSV_plain s hs.1 hs.2, escapeCSV_quoted t ht] at hst
      exact absurd (by rw [hst]; exact List.mem_cons_self _ _) hs.2
    · rw [not_or] at ht
      rw [escapeCSV_plain s hs.1 hs.2, escapeCSV_plain t ht.1 ht.2] at hst
      exact hst

/-- C11. A field with a comma or a double quote, once escaped, decodes as a quoted
CSV field (enclosing quotes stripped, doubled quotes made single) to the field
itself; a field without comma, double quote, CR and LF is written as it is and
reads as an unquoted field; and `escapeCSV` is injective. -/
theorem escapeCSV_roundtrip :
    (∀ s, (',' ∈ s ∨ '"' ∈ s) → decodeQuotedField (escapeCSV s) = some s) ∧
      (∀ s, ',' ∉ s → '"' ∉ s → '\r' ∉ s → '\n' ∉ s →
        escapeCSV s = s ∧ decodeUnquotedField (escapeCSV s) = some s) ∧
      Function.Injective escapeCSV := by
  refine ⟨decodeQuotedField_escapeCSV, ?_, escapeCSV_injective⟩
  intro s h1 h2 h3 h4
  have he := escapeCSV_plain s h1 h2
  refine ⟨he, ?_⟩
  rw [he]
  unfold decodeUnquotedField
  have hall : s.all (fun c => c != ',' && c != '"' && c != '\r' && c != '\n') = true := by
    rw [List.all_eq_true]
    intro c hc
    have e1 : c ≠ ',' := fun e => h1 (e ▸ hc)
    have e2 : c ≠ '"' := fun e => h2 (e ▸ hc)
    have e3 : c ≠ '\r' := fun e => h3 (e ▸ hc)
    have e4 : c ≠ '\n' := fun e => h4 (e ▸ hc)
    simp [e1, e2, e3, e4]
  rw [if_pos hall]

/-! ## Sharding -/

theorem loopIndices_eq (size stop fuel i : Nat) (h : min stop size - i < fuel) :
    loopIndices size stop fuel i = some (List.range' i (min stop size - i)) := by
  induction fuel generalizing i with
  | zero => omega
  | succ fuel ih =>
    unfold loopIndices
    by_cases hc : i < stop ∧ i < size
    · have hc2 : (decide (i < stop) && decide (i < size)) = true := by simp [hc]
      rw [if_pos hc2, ih (i + 1) (by omega),
        show min stop size - i = (min stop size - (i + 1)) + 1 by omega, List.range'_succ]
      rfl
    · have hc2 : ¬ ((decide (i < stop) && decide (i < size)) = true) := by simpa using hc
      have : min stop size - i = 0 := by omega
      rw [if_neg hc2, this]; rfl

theorem shardIndices_inner (n k i : Nat) (h : i + 1 < k) :
    shardIndices n k i = List.range' (i * (n / k)) (n / k) := by
  unfold shardIndices
  have hle : (i + 1) * (n / k) ≤ n :=
    Nat.le_trans (Nat.mul_le_mul_right _ (Nat.le_of_lt h)) (Nat.mul_div_le n k)
  have he : endIdx n k i = (i + 1) * (n / k) := by
    unfold endIdx filesPerThread
    rw [if_neg (by omega)]
  have hs : startIdx n k i = i * (n / k) := rfl
  have hexp : (i + 1) * (n / k) = i * (n / k) + n / k := Nat.succ_mul _ _
  rw [he, hs, hexp]
  rw [hexp] at hle
  generalize i * (n / k) = a at hle ⊢
  generalize n / k = q at hle ⊢
  rw [loopIndices_eq _ _ _ _ (by omega), Option.getD_some]
  congr 1
  omega

theorem shardIndices_last (n k : Nat) :
    shardIndices n k (k - 1) = List.range' ((k - 1) * (n / k)) (n - (k - 1) * (n / k)) := by
  unfold shardIndices
  have he : endIdx n k (k - 1) = n := by
    unfold endIdx
    rw [if_pos rfl]
  have hs : startIdx n k (k - 1) = (k - 1) * (n / k) := rfl
  rw [he, hs, loopIndices_eq _ _ _ _ (by omega), Option.getD_some, Nat.min_self]

theorem flatMap_shardIndices_inner (n k m : Nat) (h : m + 1 ≤ k) :
    (List.range m).flatMap (shardIndices n k) = List.range' 0 (m * (n / k)) := by
  induction m with
  | zero => simp
  | succ m ih =>
    rw [List.range_succ, List.flatMap_append, ih (by omega), List.flatMap_singleton,
      shardIndices_inner n k m (by omega), Nat.succ_mul]
    have := List.range'_append_1 0 (m * (n / k)) (n / k)
    rw [Nat.zero_add, Nat.add_comm] at this
    exact this

/-- The index lists of the `k` workers, one after the other, count from `0` to the
number of paths. -/
theorem flatMap_shardIndices (n k : Nat) (h : 1 ≤ k) :
    (List.range k).flatMap (shardIndices n k) = List.range n := by
  obtain ⟨m, rfl⟩ : ∃ m, k = m + 1 := ⟨k - 1, by omega⟩
  have hle : m * (n / (m + 1)) ≤ n :=
    Nat.le_trans (Nat.mul_le_mul_right _ (Nat.le_succ m)) (Nat.mul_div_le n (m + 1))
  rw [List.range_succ, List.flatMap_append, flatMap_shardIndices_inner n (m + 1) m (by omega),
    List.flatMap_singleton]
  have hl := shardIndices_last n (m + 1)
  rw [Nat.add_sub_cancel] at hl
  rw [hl, List.range_eq_range']
  have := List.range'_append_1 0 (m * (n / (m + 1))) (n - m * (n / (m + 1)))
  rw [Nat.zero_add] at this
  rw [this]
  congr 1
  omega

theorem filterMap_get?_range' (l1 l2 : List Str) :
    (List.range' l1.length l2.length).filterMap (fun j => (l1 ++ l2).get? j) = l2 := by
  induction l2 generalizing l1 with
  | nil => rfl
  | cons x l2 ih =>
    rw [List.length_cons, List.range'_succ, List.filterMap_cons]
    have hx : (l1 ++ x :: l2).get? l1.length = some x := by
      induction l1 with
      | nil => rfl
      | cons y l1 ih2 => simpa [List.get?] using ih2
    rw [hx]
    dsimp only
    have := ih (l1 ++ [x])
    rw [List.length_append, List.length_singleton, List.append_assoc, List.singleton_append]
      at this
    rw [this]

theorem filterMap_flatMap_indices (g : Nat → Option Str) (f : Nat → List Nat) (l : List Nat) :
    l.flatMap (fun i => (f i).filterMap g) = (l.flatMap f).filterMap g := by
  induction l with
  | nil => rfl
  | cons a l ih => simp [List.flatMap_cons, ih]

theorem loopIndices_shard (n k i : Nat) :
    loopIndices n (endIdx n k i) (n + 1) (startIdx n k i) = some (shardIndices n k i) := by
  unfold shardIndices
  rw [loopIndices_eq _ _ _ _ (by omega), Option.getD_some]

/-- C5. For every path list and every worker count `k ≥ 1`, the shards that
`main` hands out and `processFiles` iterates, taken in shard order, make up the
path list again, and their indices run through `0, 1, ..., n - 1` once each.  The
loop of `processFiles` ends within `n + 1` evaluations of its condition. -/
theorem shards_partition (filepaths : List Str) (k : Nat) (hk : 1 ≤ k) :
    (List.range k).flatMap (shard filepaths k) = filepaths ∧
      (List.range k).flatMap (shardIndices filepaths.length k) = List.range filepaths.length ∧
      (∀ i, loopIndices filepaths.length (endIdx filepaths.length k i) (filepaths.length + 1)
          (startIdx filepaths.length k i) = some (shardIndices filepaths.length k i)) := by
  refine ⟨?_, flatMap_shardIndices _ k hk, loopIndices_shard _ k⟩
  unfold shard
  rw [filterMap_flatMap_indices, flatMap_shardIndices _ k hk, List.range_eq_range']
  have := filterMap_get?_range' [] filepaths
  simpa using this

theorem shards_partition_witness :
    1 ≤ 3 ∧
      ((List.range 3).flatMap (shard ["a".toList, "b".toList, "c".toList, "d".toList] 3) =
          ["a".toList, "b".toList, "c".toList, "d".toList] ∧
        (List.range 3).flatMap
            (shardIndices ["a".toList, "b".toList, "c".toList, "d".toList].length 3) =
          List.range ["a".toList, "b".toList, "c".toList, "d".toList].length ∧
        (∀ i, loopIndices ["a".toList, "b".toList, "c".toList, "d".toList].length
            (endIdx ["a".toList, "b".toList, "c".toList, "d".toList].length 3 i)
            (["a".toList, "b".toList, "c".toList, "d".toList].length + 1)
            (startIdx ["a".toList, "b".toList, "c".toList, "d".toList].length 3 i) =
          some (shardIndices ["a".toList, "b".toList, "c".toList, "d".toList].length 3 i))) :=
  ⟨by decide, shards_partition ["a".toList, "b".toList, "c".toList, "d".toList] 3 (by decide)⟩


theorem filterMap_get?_range'_slice (l : List Str) (a m : Nat) :
    (List.range' a m).filterMap (fun j => l.get? j) = (l.drop a).take m := by
  induction m generalizing a with
  | zero => simp
  | succ m ih =>
    rw [List.range'_succ, List.filterMap_cons, ih (a + 1)]
    by_cases ha : a < l.length
    · have hget : l.get? a = some l[a] := by
        rw [List.get?_eq_getElem?]; exact List.getElem?_eq_getElem ha
      rw [hget, List.drop_eq_getElem_cons ha]
      rfl
    · have hget : l.get? a = none := by
        rw [List.get?_eq_getElem?]; exact List.getElem?_eq_none (by omega)
      rw [hget, List.drop_eq_nil_of_le (by omega), List.drop_eq_nil_of_le (by omega)]
      simp

theorem shard_inner (filepaths : List Str) (k i : Nat) (h : i + 1 < k) :
    shard filepaths k i =
      (filepaths.drop (i * (filepaths.length / k))).take (filepaths.length / k) := by
  unfold shard
  rw [shardIndices_inner _ k i h, filterMap_get?_range'_slice]

theorem shard_last (filepaths : List Str) (k : Nat) :
    shard filepaths k (k - 1) = filepaths.drop ((k - 1) * (filepaths.length / k)) := by
  unfold shard
  rw [shardIndices_last, filterMap_get?_range'_slice, List.take_of_length_le]
  rw [List.length_drop]

/-- C18. For `k ≥ 1` workers each of the first `k - 1` shards holds `n / k` paths
and the last one `n / k + n % k`.  With fewer paths than workers every shard but
the last is empty and the last is the whole path list; the last shard exceeds the
others by at most `k - 1` paths, and by exactly `k - 1` for a list of `k - 1`
paths. -/
theorem shard_sizes (filepaths : List Str) (k : Nat) (hk : 1 ≤ k) :
    (∀ i, i + 1 < k → (shard filepaths k i).length = filepaths.length / k) ∧
      (shard filepaths k (k - 1)).length = filepaths.length / k + filepaths.length % k ∧
      (filepaths.length < k →
        (∀ i, i + 1 < k → shard filepaths k i = []) ∧ shard filepaths k (k - 1) = filepaths) ∧
      (shard filepaths k (k - 1)).length ≤ filepaths.length / k + (k - 1) ∧
      (filepaths.length = k - 1 →
        (shard filepaths k (k - 1)).length = filepaths.length / k + (k - 1)) := by
  obtain ⟨m, rfl⟩ : ∃ m, k = m + 1 := ⟨k - 1, by omega⟩
  have hdm := Nat.div_add_mod filepaths.length (m + 1)
  have hmod : filepaths.length % (m + 1) < m + 1 := Nat.mod_lt _ (Nat.succ_pos m)
  rw [Nat.succ_mul] at hdm
  have hlast : (shard filepaths (m + 1) (m + 1 - 1)).length =
      filepaths.length / (m + 1) + filepaths.length % (m + 1) := by
    rw [shard_last, List.length_drop, Nat.add_sub_cancel]
    generalize m * (filepaths.length / (m + 1)) = a at hdm ⊢
    generalize filepaths.length / (m + 1) = q at hdm ⊢
    generalize filepaths.length % (m + 1) = r at hdm ⊢
    omega
  have hinner : ∀ i, i + 1 < m + 1 →
      (shard filepaths (m + 1) i).length = filepaths.length / (m + 1) := by
    intro i hi
    rw [shard_inner filepaths (m + 1) i hi, List.length_take, List.length_drop]
    have hle : (i + 1) * (filepaths.length / (m + 1)) ≤ filepaths.length :=
      Nat.le_trans (Nat.mul_le_mul_right _ (Nat.le_of_lt hi)) (Nat.mul_div_le _ _)
    rw [Nat.succ_mul] at hle
    generalize i * (filepaths.length / (m + 1)) = a at hle ⊢
    generalize filepaths.length / (m + 1) = q at hle ⊢
    omega
  refine ⟨hinner, hlast, ?_, by rw [hlast]; omega, ?_⟩
  · intro hlt
    have hq : filepaths.length / (m + 1) = 0 := Nat.div_eq_of_lt hlt
    constructor
    · intro i hi
      apply List.eq_nil_of_length_eq_zero
      rw [hinner i hi, hq]
    · rw [shard_last, hq, Nat.mul_zero, List.drop_zero]
  · intro hn
    rw [hlast]
    have hm2 : filepaths.length % (m + 1) = m := by
      rw [hn, Nat.add_sub_cancel]; exact Nat.mod_eq_of_lt (Nat.lt_succ_self m)
    rw [hm2, Nat.add_sub_cancel]

theorem shard_sizes_witness :
    1 ≤ 3 ∧
      (shard ["a".toList, "b".toList, "c".toList, "d".toList, "e".toList] 3 0 =
          ["a".toList] ∧
        shard ["a".toList, "b".toList, "c".toList, "d".toList, "e".toList] 3 1 =
          ["b".toList] ∧
        shard ["a".toList, "b".toList, "c".toList, "d".toList, "e".toList] 3 2 =
          ["c".toList, "d".toList, "e".toList]) ∧
      (shard ["a".toList, "b".toList, "c".toList, "d".toList, "e".toList] 3 (3 - 1)).length =
        ["a".toList, "b".toList, "c".toList, "d".toList, "e".toList].length / 3 +
          ["a".toList, "b".toList, "c".toList, "d".toList, "e".toList].length % 3 :=
  ⟨by decide, by decide,
    (shard_sizes ["a".toList, "b".toList, "c".toList, "d".toList, "e".toList] 3
      (by decide)).2.1⟩


/-! ## Workers and the merge -/

theorem flatMap_shard (filepaths : List Str) (k : Nat) (hk : 1 ≤ k) :
    (List.range k).flatMap (shard filepaths k) = filepaths := by
  unfold shard
  rw [filterMap_flatMap_indices, flatMap_shardIndices _ k hk, List.range_eq_range']
  have := filterMap_get?_range' [] filepaths
  simpa using this

theorem processFilesLoop_eq (readFile : Str → Option Str) (re : List Item)
    (filepaths : List Str) (stop fuel i : Nat) (acc : List FunctionCall)
    (h : min stop filepaths.length - i < fuel) :
    processFilesLoop readFile re filepaths stop fuel i acc =
      some (acc ++ (List.range' i (min stop filepaths.length - i)).flatMap
        (fun j => fileCalls readFile re (filepaths.getD j []))) := by
  induction fuel generalizing i acc with
  | zero => omega
  | succ fuel ih =>
    unfold processFilesLoop
    by_cases hc : i < stop ∧ i < filepaths.length
    · have hc2 : (decide (i < stop) && decide (i < filepaths.length)) = true := by simp [hc]
      rw [if_pos hc2,
        show min stop filepaths.length - i = (min stop filepaths.length - (i + 1)) + 1 by omega,
        List.range'_succ, List.flatMap_cons]
      by_cases hj : pathExtension (filepaths.getD i []) = ".java".toList
      · rw [if_pos hj, ih (i + 1) _ (by omega), List.append_assoc]
        unfold fileCalls
        rw [if_pos hj]
      · rw [if_neg hj, ih (i + 1) _ (by omega)]
        unfold fileCalls
        rw [if_neg hj, List.nil_append]
    · have hc2 : ¬ ((decide (i < stop) && decide (i < filepaths.length)) = true) := by
        simpa using hc
      have : min stop filepaths.length - i = 0 := by omega
      rw [if_neg hc2, this]
      simp

theorem flatMap_getD_indices (l : List Str) (f : Str → List FunctionCall) (idxs : List Nat)
    (h : ∀ j ∈ idxs, j < l.length) :
    idxs.flatMap (fun j => f (l.getD j [])) = (idxs.filterMap (fun j => l.get? j)).flatMap f := by
  induction idxs with
  | nil => rfl
  | cons j idxs ih =>
    have hj : j < l.length := h j (List.mem_cons_self _ _)
    have hget : l.get? j = some l[j] := by
      rw [List.get?_eq_getElem?]; exact List.getElem?_eq_getElem hj
    have hgetD : l.getD j [] = l[j] := List.getD_eq_getElem _ _ hj
    rw [List.flatMap_cons, List.filterMap_cons, hget, hgetD,
      ih (fun x hx => h x (List.mem_cons_of_mem _ hx))]
    rfl

theorem shardIndices_range' (n k i : Nat) :
    shardIndices n k i =
      List.range' (startIdx n k i) (min (endIdx n k i) n - startIdx n k i) := by
  have h1 := loopIndices_shard n k i
  rw [loopIndices_eq _ _ _ _ (by omega)] at h1
  exact (Option.some.inj h1).symm

/-- One worker: its loop ends, its local list is that of its shard, and the locked
append puts it behind what `allCalls` holds. -/
theorem processFiles_eq (readFile : Str → Option Str) (re : List Item) (filepaths : List Str)
    (k i : Nat) (allCalls : List FunctionCall) :
    processFiles readFile re filepaths allCalls
        (startIdx filepaths.length k i) (endIdx filepaths.length k i) =
      some (allCalls ++ localList readFile re filepaths k i) := by
  unfold processFiles
  rw [processFilesLoop_eq _ _ _ _ _ _ _ (by omega), ← shardIndices_range']
  dsimp only
  rw [List.nil_append, flatMap_getD_indices]
  · rfl
  · intro j hj
    rw [shardIndices_range', List.mem_range'_1] at hj
    omega

theorem flatMap_localList (readFile : Str → Option Str) (re : List Item)
    (filepaths : List Str) (k : Nat) (hk : 1 ≤ k) :
    (List.range k).flatMap (localList readFile re filepaths k) =
      filepaths.flatMap (fileCalls readFile re) := by
  unfold localList
  rw [← List.flatMap_assoc, flatMap_shard filepaths k hk]

/-- C16 does not hold of the code.  `main` creates one match data object and passes
it to every thread it starts, so any two workers have the same one; for 32 `.java`
files with a call each and the 16 threads of `main`, the workers 0 and 1 both have
paths to scan and both get Records from `pcre2_match`, which writes that one
object. -/
theorem shared_match_data :
    (∀ n k, ∀ a ∈ spawnArgs n k, ∀ b ∈ spawnArgs n k, a.matchData = b.matchData) ∧
      (spawnArgs thirtyTwoPaths.length numThreads).map (·.matchData) = List.replicate 16 0 ∧
      shard thirtyTwoPaths numThreads 0 = ["f.java".toList, "fx.java".toList] ∧
      shard thirtyTwoPaths numThreads 1 = ["fxx.java".toList, "fxxx.java".toList] ∧
      (localList oneCallFile callPattern thirtyTwoPaths numThreads 0).length = 2 ∧
      (localList oneCallFile callPattern thirtyTwoPaths numThreads 1).length = 2 := by
  refine ⟨?_, by decide, by decide, by decide, by decide, by decide⟩
  intro n k a ha b hb
  unfold spawnArgs at ha hb
  rw [List.mem_map] at ha hb
  obtain ⟨_, _, rfl⟩ := ha
  obtain ⟨_, _, rfl⟩ := hb
  rfl


/-- C15 does not hold of the code.  For 32 `.java` files with a call each, the
Record counts produced sequentially are 2 for each of the 16 shards, 32 in all, and
the whole list scanned by one worker gives 32 Records, so the claim wants a merged
list of 32 Records.  But each of the 16 threads is started with the one match data
object, which `processFile` writes and reads outside the lock, so the local lists
of the real threads are not the lists produced sequentially. -/
theorem sequential_counts_shared_match_data :
    (List.range numThreads).map
        (fun i => (localList oneCallFile callPattern thirtyTwoPaths numThreads i).length) =
        List.replicate 16 2 ∧
      ((List.range numThreads).map
        (fun i => (localList oneCallFile callPattern thirtyTwoPaths numThreads i).length)).sum =
        32 ∧
      (thirtyTwoPaths.flatMap (fileCalls oneCallFile callPattern)).length = 32 ∧
      (∀ a ∈ spawnArgs thirtyTwoPaths.length numThreads, a.matchData = 0) := by
  refine ⟨by decide, by decide, by decide, by decide⟩

end FindMyFunction
